import Mathlib

/-
Verification of the `transporteur` transportation-problem solver.

Shallow embedding of the Rust sources:
  * `src/tools/matrix.rs` : the dense `Matrix<T>` container and its Gaussian
    elimination solver `Matrix::solve`;
  * `src/tools/graph.rs`  : the undirected weighted `Graph<T>` with DFS-based
    `is_connected` / `is_cyclic` / `is_tree` and `k_edge_augmentation`;
  * `src/tools/table.rs`  : the transportation `Table<T>` orchestrator with
    `new`, the `from_file` loader, `north_west_corner`, `total_cost`,
    `potentials` and `marginal_cost`.

Modelling conventions:
  * Rust `Vec<T>` becomes `List`, `Vec<Vec<T>>` becomes `List (List _)`;
    in-bounds indexing `v[i]` becomes `List.getD` (all algorithms only index
    in bounds, which the proofs track explicitly).
  * Rust panics (`assert!`, `panic!`, index overflow) are modelled by
    `Option`/`Except` results: `none` / `.error _` marks the panic.
  * The scalar type `T` of tables and graphs is instantiated at `ℤ`
    (the binary uses `u32`/`i64`; `ℤ` covers the values that occur), and the
    solver's target scalar `V` at `ℚ` (a field satisfying every bound the
    generic code requires, matching the spec's "integer/rational exactness").
  * The two stack-based DFS loops of `graph.rs` run on explicit fuel; the
    fuel passed by the wrappers exceeds the number of loop iterations on
    every input (each iteration pops one stack entry, and the number of
    entries ever pushed is bounded by the fuel expression used below).
  * `Graph::new` seeds a RNG from wall-clock time which
    `k_edge_augmentation` uses only to shuffle the candidate list before the
    stable sort by weight; the embedding drops the seed field and takes the
    candidate list as given (theorems quantify over all candidate orders,
    hence over all shuffle outcomes).
-/

namespace Transporteur

/-! ### List helpers (2-D access in the style of `Vec<Vec<T>>`) -/

/-- `data[i][j]` with default `0` out of bounds (the code only indexes in bounds). -/
def get2 {α} [Zero α] (m : List (List α)) (i j : Nat) : α :=
  (m.getD i []).getD j 0

/-- `data[i][j] = v` (no-op out of bounds; the code only writes in bounds). -/
def set2 {α} (m : List (List α)) (i j : Nat) (v : α) : List (List α) :=
  m.set i ((m.getD i []).set j v)

/-! ### `src/tools/matrix.rs` : the `Matrix<T>` container -/

/-- `Matrix<T>`: a rows×cols grid stored as `Vec<Vec<T>>` plus cached dimensions. -/
structure Matrix (α : Type) where
  data : List (List α)
  rows : Nat
  cols : Nat
deriving Repr, DecidableEq

/-- `Matrix::new(data)`: dimensions are read off the grid (`data[0].len()`). -/
def Matrix.new {α} (data : List (List α)) : Matrix α :=
  { data := data, rows := data.length, cols := (data.getD 0 []).length }

/-- `Matrix::new_empty(n, m)`: an n×m all-default grid. -/
def Matrix.new_empty (α : Type) [Zero α] (n m : Nat) : Matrix α :=
  { data := List.replicate n (List.replicate m 0), rows := n, cols := m }

/-! ### `src/tools/graph.rs` : edges and graphs -/

/-- `Edge<T>`: a weighted edge between two string-labelled endpoints.
(Rust field names `from`/`to` are Lean keywords; they are rendered `src`/`dst`.) -/
structure Edge (α : Type) where
  src : String
  dst : String
  weight : α
deriving Repr, DecidableEq

/-- The custom `PartialEq for Edge<T>`: undirected equality on endpoints,
ignoring the weight. -/
def edgeBeq {α} (a b : Edge α) : Bool :=
  (a.src == b.src && a.dst == b.dst) || (a.src == b.dst && a.dst == b.src)

/-- `self.edges.contains(&e)` under the custom undirected `PartialEq`. -/
def containsEdge {α} (es : List (Edge α)) (e : Edge α) : Bool :=
  es.any (fun x => edgeBeq x e)

/-- `Graph<T>`: vertex labels plus weighted edges (the RNG seed field is
dropped, see the header comment). -/
structure Graph (α : Type) where
  vertices : List String
  edges : List (Edge α)
deriving Repr, DecidableEq

/-- `Graph::add_edge`: panics (`none`) if an equal undirected edge exists,
otherwise pushes the edge. No check involves `vertices`. -/
def Graph.add_edge {α} (g : Graph α) (src dst : String) (weight : α) :
    Option (Graph α) :=
  let new_edge : Edge α := ⟨src, dst, weight⟩
  if containsEdge g.edges new_edge then none
  else some { g with edges := g.edges ++ [new_edge] }

/-- `Graph::add_edges`: pushes each edge in turn, panicking (`none`) on the
first duplicate. No check involves `vertices`. -/
def Graph.add_edges {α} (g : Graph α) : List (Edge α) → Option (Graph α)
  | [] => some g
  | e :: rest =>
    if containsEdge g.edges e then none
    else Graph.add_edges { g with edges := g.edges ++ [e] } rest

/-- One iteration batch of pushes in `is_connected`'s DFS: for every edge
incident to `node` (`if from == node … else if to == node …`), the opposite
endpoint is pushed. -/
def connPushes {α} (es : List (Edge α)) (node : String) : List String :=
  es.filterMap (fun e =>
    if e.src = node then some e.dst
    else if e.dst = node then some e.src
    else none)

/-- The `while let Some(node) = stack.pop()` loop of `is_connected`.
The stack's head is its top (Rust pushes/pops at the `Vec`'s end, so a batch
of pushes is prepended in reverse). On fuel exhaustion — which the wrapper's
fuel bound makes unreachable — the final length test is reported as-is. -/
def isConnectedAux {α} (es : List (Edge α)) (nverts : Nat) :
    Nat → List String → List String → Bool
  | 0, visited, _ => visited.length == nverts
  | _ + 1, visited, [] => visited.length == nverts
  | fuel + 1, visited, node :: rest =>
    if node ∈ visited then isConnectedAux es nverts fuel visited rest
    else isConnectedAux es nverts fuel (node :: visited)
      ((connPushes es node).reverse ++ rest)

/-- Fuel bound for the DFS loops: every iteration pops one entry; at most
`|V| + 2|E|` distinct labels can be visited, each visit pushes at most
`2|E|` entries, and one entry is pushed at start. -/
def dfsFuel {α} (g : Graph α) : Nat :=
  (g.vertices.length + 2 * g.edges.length + 2) * (2 * g.edges.length + 2) + 2

/-- `Graph::is_connected`: an empty vertex set is not connected; otherwise a
DFS from `vertices[0]` must account for `vertices.len()` visited labels. -/
def Graph.is_connected {α} (g : Graph α) : Bool :=
  if g.vertices.isEmpty then false
  else isConnectedAux g.edges g.vertices.length (dfsFuel g) []
    [g.vertices.getD 0 ""]

/-- Does `parent` (an `Option`) equal the given label? (`if let Some(parent) =
parent { … == *parent }` in the Rust source; `None` compares false). -/
def parentIs (parent : Option String) (s : String) : Bool :=
  match parent with
  | some p => p == s
  | none => false

/-- The per-edge body of `is_cyclic`'s neighbour scan.  Two *independent*
`if`s test `from == current` and `to == current`; a `continue` triggered by
the parent check of the first `if` also skips the second one. -/
def cyclicPushes {α} (e : Edge α) (current : String) (parent : Option String) :
    List (String × Option String) :=
  if e.src = current then
    if parentIs parent e.dst then []
    else
      (e.dst, some current) ::
        (if e.dst = current then
          (if parentIs parent e.src then [] else [(e.src, some current)])
        else [])
  else if e.dst = current then
    (if parentIs parent e.src then [] else [(e.src, some current)])
  else []

/-- The inner `while let Some((current, parent)) = stack.pop_back()` loop of
`is_cyclic`: popping an already-visited label returns `true` (cycle) from the
whole function; otherwise the label is visited and its neighbour entries are
pushed.  Returns the flag together with the updated visited set.  On fuel
exhaustion — unreachable under the wrapper's bound — a cycle is reported. -/
def isCyclicAux {α} (es : List (Edge α)) :
    Nat → List String → List (String × Option String) → Bool × List String
  | 0, visited, _ => (true, visited)
  | _ + 1, visited, [] => (false, visited)
  | fuel + 1, visited, (current, parent) :: rest =>
    if current ∈ visited then (true, visited)
    else isCyclicAux es fuel (current :: visited)
      ((es.flatMap fun e => cyclicPushes e current parent).reverse ++ rest)

/-- The outer `for vertex in &self.vertices` loop of `is_cyclic`, threading
the visited set across components. -/
def isCyclicVerts {α} (es : List (Edge α)) (fuel : Nat) :
    List String → List String → Bool
  | _, [] => false
  | visited, v :: vs =>
    if v ∈ visited then isCyclicVerts es fuel visited vs
    else
      match isCyclicAux es fuel visited [(v, none)] with
      | (true, _) => true
      | (false, visited') => isCyclicVerts es fuel visited' vs

/-- `Graph::is_cyclic`. -/
def Graph.is_cyclic {α} (g : Graph α) : Bool :=
  isCyclicVerts g.edges (dfsFuel g) [] g.vertices

/-- `Graph::is_tree`: `is_connected() && !is_cyclic()`. -/
def Graph.is_tree {α} (g : Graph α) : Bool :=
  g.is_connected && !g.is_cyclic

/-- The error outcomes of `k_edge_augmentation` (the Rust function returns
`Err` with one of three distinct static strings; the spec names them
`AlreadyConnected`, `ContainsCycle`, `InsufficientEdges`). -/
inductive AugError where
  | alreadyConnected
  | containsCycle
  | insufficientEdges
deriving Repr, DecidableEq

/-- Decidable equality of `Result`-style values, for evaluating concrete
augmentation runs. -/
instance exceptDecEq {ε β : Type} [DecidableEq ε] [DecidableEq β] :
    DecidableEq (Except ε β)
  | .ok a, .ok b =>
    if h : a = b then .isTrue (by rw [h])
    else .isFalse (fun hh => h (by injection hh))
  | .error a, .error b =>
    if h : a = b then .isTrue (by rw [h])
    else .isFalse (fun hh => h (by injection hh))
  | .ok _, .error _ => .isFalse (fun hh => by injection hh)
  | .error _, .ok _ => .isFalse (fun hh => by injection hh)

/-- The `for edge in edges` loop of `k_edge_augmentation` (steps 2–5):
skip present edges, push the edge, roll it back (`edges.pop()`) if it closed
a cycle, otherwise count it; `break` once `k` hits zero.  Returns the final
graph and the remaining count.  (`k -= 1` underflows in Rust when `k = 0`;
the theorems therefore assume `1 ≤ k`, which callers always satisfy.) -/
def augLoop {α} : Graph α → Nat → List (Edge α) → Graph α × Nat
  | g, k, [] => (g, k)
  | g, k, e :: rest =>
    if containsEdge g.edges e then augLoop g k rest
    else
      let g' : Graph α := { g with edges := g.edges ++ [e] }
      if g'.is_cyclic then augLoop g k rest
      else
        let k' := k - 1
        if k' = 0 then (g', 0) else augLoop g' k' rest

/-- Insertion of an edge into an already weight-sorted list, before the
first edge of greater-or-equal weight (so that edges earlier in the input
stay before equal-weight edges: the stable order `sort_by` guarantees). -/
def insertByWeight {α} [LinearOrder α] (e : Edge α) :
    List (Edge α) → List (Edge α)
  | [] => [e]
  | x :: xs =>
    if x.weight < e.weight then x :: insertByWeight e xs else e :: x :: xs

/-- Step 1 of `k_edge_augmentation`: stable sort of the (shuffled) candidate
list, ascending by weight (`sort_by(partial_cmp)` — a stable ascending
sort, modelled by stable insertion sort, which computes the same list). -/
def sortEdges {α} [LinearOrder α] : List (Edge α) → List (Edge α)
  | [] => []
  | e :: rest => insertByWeight e (sortEdges rest)

/-- `Graph::k_edge_augmentation(k, edges)`.  The `edges` argument stands for
the candidate list *after* the seeded shuffle (the theorems quantify over
it, hence over every shuffle outcome). -/
def Graph.k_edge_augmentation {α} [LinearOrder α] (g : Graph α) (k : Nat)
    (edges : List (Edge α)) : Except AugError (Graph α) :=
  if g.is_connected then .error .alreadyConnected
  else if g.is_cyclic then .error .containsCycle
  else
    let sorted := sortEdges edges
    let r := augLoop g k sorted
    if r.2 > 0 then .error .insufficientEdges else .ok r.1

/-- The number of candidates the greedy scan of `k_edge_augmentation` can add
without closing a cycle, with no budget: an independent count used to state
when `InsufficientEdges` occurs. -/
def greedyCount {α} : Graph α → List (Edge α) → Nat
  | _, [] => 0
  | g, e :: rest =>
    if containsEdge g.edges e then greedyCount g rest
    else
      let g' : Graph α := { g with edges := g.edges ++ [e] }
      if g'.is_cyclic then greedyCount g rest
      else 1 + greedyCount g' rest

/-! ### `src/tools/matrix.rs` : `Matrix::solve` (Gaussian elimination)

The solver promotes coefficients into the target scalar `V`; the embedding
instantiates the source scalar at `ℤ` and `V` at `ℚ`.  The mutated rows are
rebuilt as index maps (`(List.range …).map`), which is extensionally the
in-place loop of the source. -/

/-- The construction of the augmented matrix `[A | b]`
(`aug[i][j] = A[i][j].into(); aug[i][cols] = b[i].into()`). -/
def buildAug (m : Matrix ℤ) (b : List ℤ) : List (List ℚ) :=
  (List.range m.rows).map (fun i =>
    ((List.range m.cols).map (fun j => ((get2 m.data i j : ℤ) : ℚ))) ++
      [((b.getD i 0 : ℤ) : ℚ)])

/-- One inspection of the pivot search (`if aug[k][j] > max { … } else if
-aug[k][j] > max { … }`). -/
def pivotStep (aug : List (List ℚ)) (j : Nat) (km : Nat × ℚ) (k : Nat) :
    Nat × ℚ :=
  if get2 aug k j > km.2 then (k, get2 aug k j)
  else if -get2 aug k j > km.2 then (k, -get2 aug k j)
  else km

/-- The pivot search of `solve`: starting from `kmax = i`, `max = 0`, scan
rows `i+1 .. rows-1` and record the row whose entry in column `j` beats the
running `max` in value or in negated value.  Returns `(kmax, max)`. -/
def findPivot (aug : List (List ℚ)) (i j rows : Nat) : Nat × ℚ :=
  (List.range' (i + 1) (rows - (i + 1))).foldl (pivotStep aug j) (i, 0)

/-- `augmented.data.swap(i, kmax)`. -/
def swapRows (aug : List (List ℚ)) (i kmax : Nat) : List (List ℚ) :=
  (List.range aug.length).map (fun r =>
    if r = i then aug.getD kmax []
    else if r = kmax then aug.getD i []
    else aug.getD r [])

/-- The inner update of the elimination step:
`for l in j..cols { row[l] -= base[l] * factor }`. -/
def subRow (row base : List ℚ) (factor : ℚ) (j : Nat) : List ℚ :=
  (List.range row.length).map (fun l =>
    if j ≤ l then row.getD l 0 - base.getD l 0 * factor else row.getD l 0)

/-- The elimination of column `j` below row `i`:
`for k in i+1..rows { factor = aug[k][j] / pivot; subtract factor * row i }`. -/
def elimBelow (aug : List (List ℚ)) (i j : Nat) (pivot : ℚ) : List (List ℚ) :=
  (List.range aug.length).map (fun k =>
    if i + 1 ≤ k then
      subRow (aug.getD k []) (aug.getD i []) (get2 aug k j / pivot) j
    else aug.getD k [])

/-- The `while i < rows && j < cols` loop of `solve` over the augmented
matrix (`cols` is the augmented column count): pivot search, row swap,
singularity check (`none` models `panic!("Matrix is singular")`),
elimination below, then `i += 1; j += 1`.  The fuel passed by `solve`
exceeds the iteration count (`i` increases every iteration). -/
def elimLoop : Nat → List (List ℚ) → Nat → Nat → Nat → Nat →
    Option (List (List ℚ))
  | 0, aug, _, _, _, _ => some aug
  | fuel + 1, aug, i, j, rows, cols =>
    if i < rows ∧ j < cols then
      let kmax := (findPivot aug i j rows).1
      let aug1 := swapRows aug i kmax
      let pivot := get2 aug1 i j
      if pivot = 0 then none
      else elimLoop fuel (elimBelow aug1 i j pivot) (i + 1) (j + 1) rows cols
    else some aug

/-- The back-substitution loop of `solve`
(`for i in (0..cols).rev() { solution[i] = aug[i][cols] / aug[i][i];
for j in 0..i { aug[j][cols] -= aug[j][i] * solution[i] } }`); `n` is the
original column count, `steps` counts down with `i = steps - 1`. -/
def backSub (n : Nat) : Nat → List (List ℚ) → List ℚ → List ℚ
  | 0, _, sol => sol
  | steps + 1, aug, sol =>
    let i := steps
    let xi := get2 aug i n / get2 aug i i
    let aug' := (List.range aug.length).map (fun r =>
      if r < i then (aug.getD r []).set n (get2 aug r n - get2 aug r i * xi)
      else aug.getD r [])
    backSub n steps aug' (sol.set i xi)

/-- `Matrix::solve(b)`: build `[A | b]`, eliminate, back-substitute.
`none` models the `panic!("Matrix is singular")` abort. -/
def Matrix.solve (m : Matrix ℤ) (b : List ℤ) : Option (List ℚ) :=
  (elimLoop (m.rows + 1) (buildAug m b) 0 0 m.rows (m.cols + 1)).map
    (fun aug => backSub m.cols m.cols aug (List.replicate m.cols 0))

/-! ### `src/tools/table.rs` : the transportation `Table<T>` -/

/-- `Table<T>` at `T = ℤ`: costs and transport matrices, supply and demand
vectors, cached dimensions. -/
structure Table where
  costs : Matrix ℤ
  transport : Matrix ℤ
  supply : List ℤ
  demand : List ℤ
  n : Nat
  m : Nat
deriving Repr, DecidableEq

/-- `Table::new(costs, transport, supply, demand)`: four `assert_eq!`
dimension checks (modelled by `none` on failure), then the fields are
stored with `n = supply.len()`, `m = demand.len()`.  There is no balance
check here. -/
def Table.new (costs transport : Matrix ℤ) (supply demand : List ℤ) :
    Option Table :=
  if costs.rows = supply.length ∧ costs.cols = demand.length ∧
      transport.rows = supply.length ∧ transport.cols = demand.length then
    some { costs := costs, transport := transport, supply := supply,
           demand := demand, n := supply.length, m := demand.length }
  else none

/-- `Table::from_file` after the text of the file has been parsed into `n`,
`m`, the costs grid and the supply/demand vectors (reading and tokenising
the file is I/O glue outside the model): the loader asserts the balance
invariant `Σ supply == Σ demand` (`none` models the assert failure) and
then calls `Table::new` with a fresh all-zero transport matrix. -/
def Table.from_file_parsed (n m : Nat) (costs : Matrix ℤ)
    (supply demand : List ℤ) : Option Table :=
  if supply.sum = demand.sum then
    Table.new costs (Matrix.new_empty ℤ n m) supply demand
  else none

/-- The `while i < n && j < m` loop of `north_west_corner`, acting on the
transport grid and on the *working copies* of supply and demand.  Each
iteration allocates `min(supply[i], demand[j])` at `(i, j)`, subtracts it
from both working vectors and advances a cursor whose vector entry reached
zero.  The fuel passed by the wrapper exceeds the iteration count
(`i + j` grows every iteration and is bounded by `n + m`). -/
def nwcLoop : Nat → List (List ℤ) → List ℤ → List ℤ → Nat → Nat → Nat →
    Nat → List (List ℤ)
  | 0, tp, _, _, _, _, _, _ => tp
  | fuel + 1, tp, supply, demand, i, j, n, m =>
    if i < n ∧ j < m then
      let mn := min (supply.getD i 0) (demand.getD j 0)
      let tp' := set2 tp i j mn
      let supply' := supply.set i (supply.getD i 0 - mn)
      let demand' := demand.set j (demand.getD j 0 - mn)
      let i' := if supply'.getD i 0 = 0 then i + 1 else i
      let j' := if demand'.getD j 0 = 0 then j + 1 else j
      nwcLoop fuel tp' supply' demand' i' j' n m
    else tp

/-- `Table::north_west_corner()`: runs the loop on clones of the supply and
demand vectors, writing only into the transport matrix. -/
def Table.north_west_corner (t : Table) : Table :=
  { t with transport :=
      { t.transport with
        data := nwcLoop (t.n + t.m + 1) t.transport.data t.supply t.demand
          0 0 t.n t.m } }

/-- `Table::total_cost()`: the enumerated double fold
`Σ costs[i][j] * transport[(i, j)]`. -/
def Table.total_cost (t : Table) : ℤ :=
  t.costs.data.enum.foldl
    (fun acc p =>
      p.2.enum.foldl
        (fun acc q => acc + q.2 * get2 t.transport.data p.1 q.1) acc)
    0

/-- `s.parse::<usize>()` on the canonical all-digit labels the code
produces: reads decimal digits left to right, rejecting any non-digit
character (the Rust parser additionally accepts a leading `+` and errors
on overflow, neither of which can occur on the `S{i}`/`D{j}` labels
`get_graph` generates). -/
def parseDigits : List Char → Nat → Option Nat
  | [], acc => some acc
  | c :: rest, acc =>
    if '0' ≤ c ∧ c ≤ '9' then
      parseDigits rest (acc * 10 + (c.toNat - Char.toNat '0'))
    else none

/-- `edge.from.strip_prefix("S").and_then(|s| s.parse::<usize>().ok())`:
the label must start with `S` and the (nonempty) remainder must parse as
an unsigned integer. -/
def sIndex (s : String) : Option Nat :=
  match s.data with
  | 'S' :: rest => if rest = [] then none else parseDigits rest 0
  | _ => none

/-- `edge.to.strip_prefix("D").and_then(|s| s.parse::<usize>().ok())`. -/
def dIndex (s : String) : Option Nat :=
  match s.data with
  | 'D' :: rest => if rest = [] then none else parseDigits rest 0
  | _ => none

/-- The `for edge in graph.edges` fill loop of `potentials`: every edge
whose endpoints parse as `S{i}` / `D{j}` writes row `l` of the system
(`a[(l, i-1)] = 1; a[(l, n+j-1)] = -1; b[l] = costs[(i-1, j-1)]`) and
increments `l`; other edges are skipped. -/
def fillSystem (costs : List (List ℤ)) (n : Nat) :
    List (Edge ℤ) → List (List ℤ) × List ℤ × Nat →
    List (List ℤ) × List ℤ × Nat
  | [], st => st
  | e :: rest, (a, b, l) =>
    match sIndex e.src, dIndex e.dst with
    | some i, some j =>
      fillSystem costs n rest
        (set2 (set2 a l (i - 1) 1) l (n + j - 1) (-1),
          b.set l (get2 costs (i - 1) (j - 1)), l + 1)
    | _, _ => fillSystem costs n rest (a, b, l)

/-- `Table::potentials(graph)`: panics (`none`) unless `graph.is_tree()`;
builds the `(n+m) × (n+m)` system from the tree edges, appends the
normalization row `a[(l, 0)] = 1; b[l] = 0` (whose write panics — `none` —
if `l` is already out of range), solves it, and splits the solution into
`u = potentials[0..n]` and `v = potentials[n..n+m]`. -/
def Table.potentials (t : Table) (g : Graph ℤ) : Option (List ℚ × List ℚ) :=
  if g.is_tree then
    let size := t.n + t.m
    let st := fillSystem t.costs.data t.n g.edges
      ((Matrix.new_empty ℤ size size).data, List.replicate size 0, 0)
    if st.2.2 < size then
      let a := set2 st.1 st.2.2 0 1
      let b := st.2.1.set st.2.2 0
      (Matrix.solve { data := a, rows := size, cols := size } b).map
        (fun sol =>
          ((List.range t.n).map (fun i => sol.getD i 0),
            (List.range t.m).map (fun j => sol.getD (t.n + j) 0)))
    else none
  else none

/-- `Table::marginal_cost(graph)`: the n×m matrix of reduced costs
`costs[(i, j)].into() - (u[i] - v[j])` over the potentials of `graph`. -/
def Table.marginal_cost (t : Table) (g : Graph ℤ) : Option (Matrix ℚ) :=
  (t.potentials g).map (fun uv =>
    { data := (List.range t.n).map (fun i =>
        (List.range t.m).map (fun j =>
          ((get2 t.costs.data i j : ℤ) : ℚ) - (uv.1.getD i 0 - uv.2.getD j 0))),
      rows := t.n, cols := t.m })

/-! ### Row/column sums (used to state the feasibility properties) -/

/-- The sum of row `r` of a grid. -/
def rowSum (tp : List (List ℤ)) (r : Nat) : ℤ :=
  (tp.getD r []).sum

/-- The sum of column `c` of a grid. -/
def colSum (tp : List (List ℤ)) (c : Nat) : ℤ :=
  (tp.map (fun row => row.getD c 0)).sum

/-- No two edges of the list are equal under the undirected `PartialEq`. -/
def noDupEdges {α} (es : List (Edge α)) : Prop :=
  es.Pairwise (fun a b => edgeBeq a b = false)

/-! ### Concrete instances used by counterexamples and witnesses -/

/-- The spec's concrete scenario: costs `[[1,2],[3,4]]`, supply `[5,5]`,
demand `[6,4]`, all-zero transport. -/
def tblEx : Table :=
  { costs := Matrix.new [[1, 2], [3, 4]], transport := Matrix.new_empty ℤ 2 2,
    supply := [5, 5], demand := [6, 4], n := 2, m := 2 }

/-- A spanning tree of `tblEx`'s bipartite graph: edges S1–D1, S1–D2, S2–D2. -/
def gTEx : Graph ℤ :=
  { vertices := ["S1", "S2", "D1", "D2"],
    edges := [Edge.mk "S1" "D1" 5, Edge.mk "S1" "D2" 1, Edge.mk "S2" "D2" 4] }

/-- The spec's augmentation scenario: vertices `{A, B, C}`, no edges. -/
def gABC : Graph ℤ := { vertices := ["A", "B", "C"], edges := [] }

/-- Candidates for the augmentation scenario: A–B (1), B–C (2), A–C (3). -/
def candsABC : List (Edge ℤ) :=
  [Edge.mk "A" "B" 1, Edge.mk "B" "C" 2, Edge.mk "A" "C" 3]

/-- The expected result of `gABC.k_edge_augmentation 2 candsABC`. -/
def gABCres : Graph ℤ :=
  { vertices := ["A", "B", "C"],
    edges := [Edge.mk "A" "B" 1, Edge.mk "B" "C" 2] }

/-- A concrete augmented matrix where the pivot search skips the current
row: row 0 holds the column maximum `2`, row 1 holds `1`. -/
def augC2 : List (List ℚ) := [[2, 0, 2], [1, 1, 2]]

/-! ### Specification-side predicates for the linear solver -/

/-- Dot product of a row's first `n` entries with an assignment. -/
def rowDot (row : List ℚ) (n : Nat) (x : Nat → ℚ) : ℚ :=
  ∑ c ∈ Finset.range n, row.getD c 0 * x c

/-- The equation of one augmented row: `Σ row[c]·x c = row[n]`. -/
def satRow (row : List ℚ) (n : Nat) (x : Nat → ℚ) : Prop :=
  rowDot row n x = row.getD n 0

/-- All `rows` equations of an augmented matrix hold for `x`. -/
def satAug (aug : List (List ℚ)) (rows n : Nat) (x : Nat → ℚ) : Prop :=
  ∀ r, r < rows → satRow (aug.getD r []) n x

/-- The homogeneous equation of one row: `Σ row[c]·x c = 0`. -/
def homRow (row : List ℚ) (n : Nat) (x : Nat → ℚ) : Prop :=
  rowDot row n x = 0

/-- All homogeneous equations (coefficient part only) hold for `x`. -/
def satHom (aug : List (List ℚ)) (rows n : Nat) (x : Nat → ℚ) : Prop :=
  ∀ r, r < rows → homRow (aug.getD r []) n x

/-- Shape of an augmented matrix: `rows` rows of length `n + 1`. -/
def AugShape (aug : List (List ℚ)) (rows n : Nat) : Prop :=
  aug.length = rows ∧ ∀ row ∈ aug, row.length = n + 1

/-- Elimination progress: every column `c < j` is zero below its diagonal. -/
def ZInv (aug : List (List ℚ)) (rows j : Nat) : Prop :=
  ∀ c, c < j → ∀ r, c < r → r < rows → get2 aug r c = 0

/-- Pivot progress: the first `i` diagonal entries are nonzero. -/
def DiagInv (aug : List (List ℚ)) (i : Nat) : Prop :=
  ∀ r, r < i → get2 aug r r ≠ 0

/-- A nonzero kernel-vector construction used when the pivot subcolumn at
step `i` is entirely zero: `x i = 1`, indices above `i` are back-solved
through the already-triangular rows, the rest is `0`. -/
def kvecAux (aug : List (List ℚ)) (i : Nat) : Nat → Nat → ℚ
  | 0 => fun c => if c = i then 1 else 0
  | s + 1 => fun c =>
    if c = i - (s + 1) then
      -(∑ t ∈ Finset.Ioc (i - (s + 1)) i,
          get2 aug (i - (s + 1)) t * kvecAux aug i s t) /
        get2 aug (i - (s + 1)) (i - (s + 1))
    else kvecAux aug i s c

/-- The index pairs `(i-1, n+j-1)` of the unknowns each parsed edge
`S{i}–D{j}` equates. -/
def edgePairs (n : Nat) (es : List (Edge ℤ)) : List (Nat × Nat) :=
  es.filterMap (fun e =>
    match sIndex e.src, dIndex e.dst with
    | some i, some j => some (i - 1, n + j - 1)
    | _, _ => none)

/-- Iterated closure of `{0}` under the given index pairs; with fuel at
least the number of unknowns it contains every index connected to `0`. -/
def reachClosure (ps : List (Nat × Nat)) : Nat → List Nat
  | 0 => [0]
  | fuel + 1 =>
    let prev := reachClosure ps fuel
    prev ++ ps.filterMap (fun p =>
      if p.1 ∈ prev ∧ p.2 ∉ prev then some p.2
      else if p.2 ∈ prev ∧ p.1 ∉ prev then some p.1
      else none)

/-! ## Helper lemmas on lists -/

theorem getD_set_self {α} (l : List α) (i : Nat) (v d : α) (h : i < l.length) :
    (l.set i v).getD i d = v := by
  induction l generalizing i with
  | nil => simp at h
  | cons a t ih =>
    cases i with
    | zero => rfl
    | succ i => simpa using ih i (by simpa using h)

theorem getD_set_ne {α} (l : List α) (i k : Nat) (v d : α) (h : i ≠ k) :
    (l.set i v).getD k d = l.getD k d := by
  induction l generalizing i k with
  | nil => rfl
  | cons a t ih =>
    cases i with
    | zero => cases k with
      | zero => exact absurd rfl h
      | succ k => rfl
    | succ i => cases k with
      | zero => rfl
      | succ k => simpa using ih i k (by omega)

theorem sum_set (l : List ℤ) (i : Nat) (v : ℤ) (h : i < l.length) :
    (l.set i v).sum = l.sum - l.getD i 0 + v := by
  induction l generalizing i with
  | nil => simp at h
  | cons a t ih =>
    cases i with
    | zero => simp [List.sum_cons]; ring
    | succ i =>
      have := ih i (by simpa using h)
      simp only [List.set_cons_succ, List.sum_cons, List.getD_cons_succ, this]
      ring

theorem map_set {α β} (f : α → β) (l : List α) (i : Nat) (v : α) :
    (l.set i v).map f = (l.map f).set i (f v) := by
  induction l generalizing i with
  | nil => rfl
  | cons a t ih =>
    cases i with
    | zero => rfl
    | succ i => simp [ih i]

theorem getD_mem {α} (l : List α) (i : Nat) (d : α) (h : i < l.length) :
    l.getD i d ∈ l := by
  rw [List.getD_eq_getElem l d h]
  exact List.getElem_mem h

theorem sum_zero_of_forall_zero (l : List ℤ) (h : ∀ x ∈ l, x = 0) :
    l.sum = 0 := by
  induction l with
  | nil => rfl
  | cons a t ih =>
    simp only [List.sum_cons, h a (List.mem_cons_self a t),
      ih (fun x hx => h x (List.mem_cons_of_mem a hx)), add_zero]

theorem all_zero_of_nonneg_sum_zero (l : List ℤ)
    (hnn : ∀ x ∈ l, 0 ≤ x) (hs : l.sum = 0) : ∀ x ∈ l, x = 0 := by
  induction l with
  | nil => simp
  | cons a t ih =>
    have ha : 0 ≤ a := hnn a (List.mem_cons_self a t)
    have ht : 0 ≤ t.sum := List.sum_nonneg (fun x hx => hnn x (List.mem_cons_of_mem a hx))
    have hsum : a + t.sum = 0 := by simpa using hs
    have ha0 : a = 0 := by omega
    have hts : t.sum = 0 := by omega
    intro x hx
    rcases List.mem_cons.mp hx with hx | hx
    · omega
    · exact ih (fun y hy => hnn y (List.mem_cons_of_mem a hy)) hts x hx

theorem getD_map_range {β} (f : Nat → β) (d : β) (n r : Nat) :
    ((List.range n).map f).getD r d = if r < n then f r else d := by
  by_cases h : r < n
  · rw [List.getD_eq_getElem _ _ (by simpa using h)]
    simp [h]
  · rw [List.getD_eq_default _ _ (by simpa using Nat.le_of_not_lt h)]
    simp [h]

/-! ## Claim C1 — balance validation at construction -/

/-- C1 counterexample: `Table::new` accepts an unbalanced problem.  With
supply `[1]` and demand `[2]` (sums 1 ≠ 2, dimensions agreeing, vectors
nonempty), `new` *returns a Table* instead of failing, contradicting the
claim that constructing a Table with `Σsupply ≠ Σdemand` always fails. -/
theorem C1_counterexample :
    ([1] : List ℤ).sum ≠ ([2] : List ℤ).sum ∧
    (Table.new (Matrix.new ([[0]] : List (List ℤ)))
        (Matrix.new ([[0]] : List (List ℤ))) [1] [2]).isSome = true := by
  decide

/-- C1 (amended): for every costs/transport matrix and nonempty supply and
demand vectors of agreeing dimensions with `Σsupply ≠ Σdemand`, the
`from_file` loader always fails (`UnbalancedProblem`), while `Table::new`
performs only the dimension checks and produces a Table value. -/
theorem C1_amended (costs transport : Matrix ℤ) (supply demand : List ℤ)
    (n m : Nat)
    (h1 : costs.rows = supply.length) (h2 : costs.cols = demand.length)
    (h3 : transport.rows = supply.length) (h4 : transport.cols = demand.length)
    (_hne1 : supply ≠ []) (_hne2 : demand ≠ [])
    (hunbal : supply.sum ≠ demand.sum) :
    Table.from_file_parsed n m costs supply demand = none ∧
    ∃ t, Table.new costs transport supply demand = some t := by
  constructor
  · unfold Table.from_file_parsed
    simp [hunbal]
  · unfold Table.new
    rw [if_pos ⟨h1, h2, h3, h4⟩]
    exact ⟨_, rfl⟩

/-- C1 witness: the amended statement at the concrete unbalanced instance. -/
theorem C1_witness :
    Table.from_file_parsed 1 1 (Matrix.new ([[0]] : List (List ℤ)))
        [1] [2] = none ∧
    ∃ t, Table.new (Matrix.new ([[0]] : List (List ℤ)))
        (Matrix.new ([[0]] : List (List ℤ))) [1] [2] = some t :=
  C1_amended (Matrix.new [[0]]) (Matrix.new [[0]]) [1] [2] 1 1
    (by decide) (by decide) (by decide) (by decide)
    (by decide) (by decide) (by decide)

/-! ## Claim C8 — the concrete North-West-Corner scenario -/

/-- C8: on the instance costs `[[1,2],[3,4]]`, supply `[5,5]`, demand
`[6,4]` with all-zero transport, `north_west_corner` produces transport
`[[5,0],[1,4]]` and `total_cost` returns 24. -/
theorem C8_theorem :
    (tblEx.north_west_corner).transport.data = [[5, 0], [1, 4]] ∧
    (tblEx.north_west_corner).total_cost = 24 := by
  decide

/-! ## Claim C9 — `north_west_corner` mutates only the transport matrix -/

/-- C9: for every Table, `north_west_corner` leaves the costs matrix, the
supply and demand vectors and the cached dimensions unchanged (the loop
subtracts allocations only from working copies), and it also preserves the
transport matrix's recorded dimensions. -/
theorem C9_theorem (t : Table) :
    (t.north_west_corner).costs = t.costs ∧
    (t.north_west_corner).supply = t.supply ∧
    (t.north_west_corner).demand = t.demand ∧
    (t.north_west_corner).n = t.n ∧
    (t.north_west_corner).m = t.m ∧
    (t.north_west_corner).transport.rows = t.transport.rows ∧
    (t.north_west_corner).transport.cols = t.transport.cols :=
  ⟨rfl, rfl, rfl, rfl, rfl, rfl, rfl⟩

/-! ## Claim C10 — no endpoint validation in edge insertion -/

/-- C10: `add_edge` (and `add_edges`) succeed and append the edge whenever
no equal undirected edge is present — the condition involves only the edge
list, never the vertex list, so edges between absent labels are accepted. -/
theorem C10_theorem (g : Graph ℤ) (src dst : String) (w : ℤ)
    (h : containsEdge g.edges (Edge.mk src dst w) = false) :
    g.add_edge src dst w =
      some { g with edges := g.edges ++ [Edge.mk src dst w] } ∧
    g.add_edges [Edge.mk src dst w] =
      some { g with edges := g.edges ++ [Edge.mk src dst w] } := by
  constructor
  · unfold Graph.add_edge
    simp [h]
  · unfold Graph.add_edges
    simp [h]
    rfl

/-- C10 witness: on the empty graph (no vertices at all), an edge between
the absent labels "X" and "Y" is accepted and appended. -/
theorem C10_witness :
    (Graph.mk ([] : List String) ([] : List (Edge ℤ))).add_edge "X" "Y" 1 =
      some (Graph.mk [] [Edge.mk "X" "Y" 1]) ∧
    (Graph.mk ([] : List String) ([] : List (Edge ℤ))).add_edges
        [Edge.mk "X" "Y" 1] = some (Graph.mk [] [Edge.mk "X" "Y" 1]) :=
  C10_theorem (Graph.mk [] []) "X" "Y" 1 (by decide)

/-! ## Helper lemmas on 2-D grids -/

theorem length_set2 {α} (tp : List (List α)) (i j : Nat) (v : α) :
    (set2 tp i j v).length = tp.length := by
  simp [set2]

theorem get2_set2_eq (tp : List (List ℤ)) (i j : Nat) (v : ℤ)
    (hi : i < tp.length) (hj : j < (tp.getD i []).length) :
    get2 (set2 tp i j v) i j = v := by
  unfold get2 set2
  rw [getD_set_self _ _ _ _ hi, getD_set_self _ _ _ _ hj]

theorem get2_set2_ne (tp : List (List ℤ)) (i j r c : Nat) (v : ℤ)
    (h : ¬(r = i ∧ c = j)) :
    get2 (set2 tp i j v) r c = get2 tp r c := by
  unfold get2 set2
  by_cases hri : r = i
  · subst hri
    have hcj : c ≠ j := fun hc => h ⟨rfl, hc⟩
    by_cases hlen : r < tp.length
    · rw [getD_set_self _ _ _ _ hlen, getD_set_ne _ _ _ _ _ (fun hh => hcj hh.symm)]
    · rw [List.set_eq_of_length_le (Nat.le_of_not_lt hlen)]
  · rw [getD_set_ne _ _ _ _ _ (fun hh => hri hh.symm)]

theorem shape_set2 (tp : List (List ℤ)) (i j : Nat) (v : ℤ) (m : Nat)
    (hrect : ∀ row ∈ tp, row.length = m) (hi : i < tp.length) :
    ∀ row ∈ set2 tp i j v, row.length = m := by
  intro row hrow
  rcases List.mem_or_eq_of_mem_set hrow with h | h
  · exact hrect row h
  · subst h
    rw [List.length_set]
    exact hrect _ (getD_mem tp i [] hi)

theorem rowSum_set2_ne (tp : List (List ℤ)) (i j r : Nat) (v : ℤ)
    (h : r ≠ i) : rowSum (set2 tp i j v) r = rowSum tp r := by
  unfold rowSum set2
  rw [getD_set_ne _ _ _ _ _ (fun hh => h hh.symm)]

theorem rowSum_set2_eq (tp : List (List ℤ)) (i j : Nat) (v : ℤ)
    (hi : i < tp.length) (hj : j < (tp.getD i []).length) :
    rowSum (set2 tp i j v) i = rowSum tp i - get2 tp i j + v := by
  unfold rowSum set2 get2
  rw [getD_set_self _ _ _ _ hi, sum_set _ _ _ hj]

theorem colSum_set2_ne (tp : List (List ℤ)) (i j c : Nat) (v : ℤ)
    (h : c ≠ j) : colSum (set2 tp i j v) c = colSum tp c := by
  unfold colSum set2
  rw [map_set]
  by_cases hi : i < tp.length
  · rw [sum_set _ _ _ (by simpa using hi)]
    have : ((tp.getD i []).set j v).getD c 0 = (tp.getD i []).getD c 0 :=
      getD_set_ne _ _ _ _ _ (fun hh => h hh.symm)
    rw [this]
    have hmap : (tp.map (fun row => row.getD c 0)).getD i 0 =
        (tp.getD i []).getD c 0 := by
      have := List.getD_map (l := tp) (n := i) (fun row => row.getD c 0) (d := [])
      simpa using this
    rw [hmap]
    ring
  · rw [List.set_eq_of_length_le (by simpa using Nat.le_of_not_lt hi)]

theorem colSum_set2_eq (tp : List (List ℤ)) (i j : Nat) (v : ℤ)
    (hi : i < tp.length) (hj : j < (tp.getD i []).length) :
    colSum (set2 tp i j v) j = colSum tp j - get2 tp i j + v := by
  unfold colSum set2 get2
  rw [map_set, sum_set _ _ _ (by simpa using hi)]
  have hmap : (tp.map (fun row => row.getD j 0)).getD i 0 =
      (tp.getD i []).getD j 0 := by
    have := List.getD_map (l := tp) (n := i) (fun row => row.getD j 0) (d := [])
    simpa using this
  rw [hmap, getD_set_self _ _ _ _ hj]

theorem getD_replicate' {α} (x d : α) (k i : Nat) :
    (List.replicate k x).getD i d = if i < k then x else d := by
  induction k generalizing i with
  | zero => simp
  | succ k ih =>
    cases i with
    | zero => simp
    | succ i =>
      simp only [List.replicate_succ, List.getD_cons_succ, ih i,
        Nat.succ_lt_succ_iff]

theorem get2_replicate_zero (n m r c : Nat) :
    get2 (List.replicate n (List.replicate m (0 : ℤ))) r c = 0 := by
  unfold get2
  rw [getD_replicate']
  split
  · rw [getD_replicate']
    split <;> rfl
  · rfl

/-! ## Claim C4 — North-West-Corner feasibility -/

/-- Unfolding of one executed `north_west_corner` iteration. -/
theorem nwcLoop_step (fuel : Nat) (tp : List (List ℤ)) (s d : List ℤ)
    (i j n m : Nat) (hg : i < n ∧ j < m) :
    nwcLoop (fuel + 1) tp s d i j n m =
      nwcLoop fuel (set2 tp i j (min (s.getD i 0) (d.getD j 0)))
        (s.set i (s.getD i 0 - min (s.getD i 0) (d.getD j 0)))
        (d.set j (d.getD j 0 - min (s.getD i 0) (d.getD j 0)))
        (if (s.set i (s.getD i 0 - min (s.getD i 0) (d.getD j 0))).getD i 0 = 0
          then i + 1 else i)
        (if (d.set j (d.getD j 0 - min (s.getD i 0) (d.getD j 0))).getD j 0 = 0
          then j + 1 else j)
        n m := by
  simp only [nwcLoop, if_pos hg]

/-- Unfolding of the loop exit. -/
theorem nwcLoop_stop (fuel : Nat) (tp : List (List ℤ)) (s d : List ℤ)
    (i j n m : Nat) (hg : ¬(i < n ∧ j < m)) :
    nwcLoop (fuel + 1) tp s d i j n m = tp := by
  simp only [nwcLoop, if_neg hg]

/-- The main invariant of the North-West-Corner loop: every completed row
keeps its allocation, and each remaining working-vector entry is exactly
what its row/column still needs. -/
theorem nwcLoop_spec (n m : Nat) (fuel : Nat) :
    ∀ (tp : List (List ℤ)) (s d : List ℤ) (i j : Nat),
    s.length = n → d.length = m →
    tp.length = n → (∀ row ∈ tp, row.length = m) →
    (n - i) + (m - j) < fuel →
    (∀ r, 0 ≤ s.getD r 0) → (∀ c, 0 ≤ d.getD c 0) →
    s.sum = d.sum →
    (∀ r, r < i → s.getD r 0 = 0) → (∀ c, c < j → d.getD c 0 = 0) →
    (∀ r c, i ≤ r → j ≤ c → get2 tp r c = 0) →
    (∀ r, r < n → rowSum (nwcLoop fuel tp s d i j n m) r =
        rowSum tp r + s.getD r 0) ∧
    (∀ c, c < m → colSum (nwcLoop fuel tp s d i j n m) c =
        colSum tp c + d.getD c 0) := by
  induction fuel with
  | zero =>
    intro tp s d i j _ _ _ _ hfuel _ _ _ _ _ _
    omega
  | succ fuel ih =>
    intro tp s d i j hs hd htl hrect hfuel hsnn hdnn hbal hzs hzd hahead
    by_cases hg : i < n ∧ j < m
    · obtain ⟨hi, hj⟩ := hg
      have hsl : i < s.length := by omega
      have hdl : j < d.length := by omega
      have htpl : i < tp.length := by omega
      have hrowl : (tp.getD i []).length = m :=
        hrect _ (getD_mem tp i [] htpl)
      have hrowj : j < (tp.getD i []).length := by omega
      rw [nwcLoop_step fuel tp s d i j n m ⟨hi, hj⟩]
      rw [getD_set_self _ _ _ _ hsl, getD_set_self _ _ _ _ hdl]
      have hmn : min (s.getD i 0) (d.getD j 0) = s.getD i 0 ∨
          min (s.getD i 0) (d.getD j 0) = d.getD j 0 := min_choice _ _
      have hmle1 : min (s.getD i 0) (d.getD j 0) ≤ s.getD i 0 := min_le_left _ _
      have hmle2 : min (s.getD i 0) (d.getD j 0) ≤ d.getD j 0 := min_le_right _ _
      -- abbreviations
      set mn := min (s.getD i 0) (d.getD j 0)
      set tp' := set2 tp i j mn
      set s' := s.set i (s.getD i 0 - mn)
      set d' := d.set j (d.getD j 0 - mn)
      -- state facts independent of which cursor advances
      have hs'len : s'.length = n := by simp [s', hs]
      have hd'len : d'.length = m := by simp [d', hd]
      have htp'len : tp'.length = n := by simp [tp', length_set2, htl]
      have htp'rect : ∀ row ∈ tp', row.length = m :=
        shape_set2 tp i j mn m hrect htpl
      have hs'i : s'.getD i 0 = s.getD i 0 - mn := getD_set_self _ _ _ _ hsl
      have hd'j : d'.getD j 0 = d.getD j 0 - mn := getD_set_self _ _ _ _ hdl
      have hs'ne : ∀ r, r ≠ i → s'.getD r 0 = s.getD r 0 := fun r hr =>
        getD_set_ne _ _ _ _ _ (fun hh => hr hh.symm)
      have hd'ne : ∀ c, c ≠ j → d'.getD c 0 = d.getD c 0 := fun c hc =>
        getD_set_ne _ _ _ _ _ (fun hh => hc hh.symm)
      have hs'nn : ∀ r, 0 ≤ s'.getD r 0 := by
        intro r
        by_cases hr : r = i
        · subst hr; rw [hs'i]; omega
        · rw [hs'ne r hr]; exact hsnn r
      have hd'nn : ∀ c, 0 ≤ d'.getD c 0 := by
        intro c
        by_cases hc : c = j
        · subst hc; rw [hd'j]; omega
        · rw [hd'ne c hc]; exact hdnn c
      have hs'sum : s'.sum = s.sum - mn := by
        rw [sum_set _ _ _ hsl]; ring
      have hd'sum : d'.sum = d.sum - mn := by
        rw [sum_set _ _ _ hdl]; ring
      have hbal' : s'.sum = d'.sum := by rw [hs'sum, hd'sum, hbal]
      -- translation of the conclusions from one step earlier
      have htrans_row : ∀ r, r < n →
          rowSum tp' r + s'.getD r 0 = rowSum tp r + s.getD r 0 := by
        intro r hr
        by_cases hri : r = i
        · rw [hri]
          rw [rowSum_set2_eq tp i j mn htpl hrowj, hs'i,
            hahead i j (Nat.le_refl i) (Nat.le_refl j)]
          ring
        · rw [rowSum_set2_ne tp i j r mn hri, hs'ne r hri]
      have htrans_col : ∀ c, c < m →
          colSum tp' c + d'.getD c 0 = colSum tp c + d.getD c 0 := by
        intro c hc
        by_cases hcj : c = j
        · rw [hcj]
          rw [colSum_set2_eq tp i j mn htpl hrowj, hd'j,
            hahead i j (Nat.le_refl i) (Nat.le_refl j)]
          ring
        · rw [colSum_set2_ne tp i j c mn hcj, hd'ne c hcj]
      -- ahead-region zeros, for any advanced cursors
      have hahead' : ∀ i' j', i ≤ i' → j ≤ j' → ¬(i' ≤ i ∧ j' ≤ j) →
          ∀ r c, i' ≤ r → j' ≤ c → get2 tp' r c = 0 := by
        intro i' j' hii hjj hne r c hr hc
        have hne2 : ¬(r = i ∧ c = j) := by
          intro hrc
          obtain ⟨h1, h2⟩ := hrc
          exact hne ⟨by omega, by omega⟩
        rw [get2_set2_ne tp i j r c mn hne2]
        exact hahead r c (by omega) (by omega)
      by_cases hA : s.getD i 0 - mn = 0 <;> by_cases hB : d.getD j 0 - mn = 0
      · -- both cursors advance
        rw [if_pos hA, if_pos hB]
        obtain ⟨ihr, ihc⟩ := ih tp' s' d' (i + 1) (j + 1)
          hs'len hd'len htp'len htp'rect (by omega) hs'nn hd'nn hbal'
          (by
            intro r hr
            by_cases hri : r = i
            · subst hri; rw [hs'i]; omega
            · rw [hs'ne r hri]; exact hzs r (by omega))
          (by
            intro c hc
            by_cases hcj : c = j
            · subst hcj; rw [hd'j]; omega
            · rw [hd'ne c hcj]; exact hzd c (by omega))
          (hahead' (i + 1) (j + 1) (by omega) (by omega) (by omega))
        exact ⟨fun r hr => by rw [ihr r hr, htrans_row r hr],
          fun c hc => by rw [ihc c hc, htrans_col c hc]⟩
      · -- supply row exhausted, demand remains
        rw [if_pos hA, if_neg hB]
        obtain ⟨ihr, ihc⟩ := ih tp' s' d' (i + 1) j
          hs'len hd'len htp'len htp'rect (by omega) hs'nn hd'nn hbal'
          (by
            intro r hr
            by_cases hri : r = i
            · subst hri; rw [hs'i]; omega
            · rw [hs'ne r hri]; exact hzs r (by omega))
          (by
            intro c hc
            rw [hd'ne c (by omega)]
            exact hzd c hc)
          (hahead' (i + 1) j (by omega) (Nat.le_refl j) (by omega))
        exact ⟨fun r hr => by rw [ihr r hr, htrans_row r hr],
          fun c hc => by rw [ihc c hc, htrans_col c hc]⟩
      · -- demand column exhausted, supply remains
        rw [if_neg hA, if_pos hB]
        obtain ⟨ihr, ihc⟩ := ih tp' s' d' i (j + 1)
          hs'len hd'len htp'len htp'rect (by omega) hs'nn hd'nn hbal'
          (by
            intro r hr
            rw [hs'ne r (by omega)]
            exact hzs r hr)
          (by
            intro c hc
            by_cases hcj : c = j
            · subst hcj; rw [hd'j]; omega
            · rw [hd'ne c hcj]; exact hzd c (by omega))
          (hahead' i (j + 1) (Nat.le_refl i) (by omega) (by omega))
        exact ⟨fun r hr => by rw [ihr r hr, htrans_row r hr],
          fun c hc => by rw [ihc c hc, htrans_col c hc]⟩
      · -- impossible: min equals one of the two entries
        exfalso
        rcases hmn with h | h <;> omega
    · -- loop exit: one cursor is exhausted, all working entries are zero
      rw [nwcLoop_stop fuel tp s d i j n m hg]
      have hallzero : (∀ r, r < n → s.getD r 0 = 0) ∧
          (∀ c, c < m → d.getD c 0 = 0) := by
        rcases Nat.lt_or_ge i n with hi | hi
        · -- then j ≥ m : the demand side is exhausted
          have hjm : m ≤ j := by
            rcases Nat.lt_or_ge j m with hj | hj
            · exact absurd ⟨hi, hj⟩ hg
            · exact hj
          have hdz : ∀ c, c < m → d.getD c 0 = 0 := fun c hc =>
            hzd c (by omega)
          have hdsum : d.sum = 0 := by
            apply sum_zero_of_forall_zero
            intro x hx
            obtain ⟨c, hc, rfl⟩ := List.mem_iff_getElem.mp hx
            have : d.getD c 0 = d[c] := List.getD_eq_getElem d 0 hc
            rw [← this]
            exact hdz c (by omega)
          have hssum : s.sum = 0 := by rw [hbal, hdsum]
          have hsz : ∀ x ∈ s, x = 0 :=
            all_zero_of_nonneg_sum_zero s
              (fun x hx => by
                obtain ⟨r, hr, rfl⟩ := List.mem_iff_getElem.mp hx
                have : s.getD r 0 = s[r] := List.getD_eq_getElem s 0 hr
                rw [← this]
                exact hsnn r) hssum
          refine ⟨fun r hr => ?_, hdz⟩
          have hrl : r < s.length := by omega
          have : s.getD r 0 = s[r] := List.getD_eq_getElem s 0 hrl
          rw [this]
          exact hsz _ (List.getElem_mem hrl)
        · -- i ≥ n : the supply side is exhausted
          have hsz : ∀ r, r < n → s.getD r 0 = 0 := fun r hr =>
            hzs r (by omega)
          have hssum : s.sum = 0 := by
            apply sum_zero_of_forall_zero
            intro x hx
            obtain ⟨r, hr, rfl⟩ := List.mem_iff_getElem.mp hx
            have : s.getD r 0 = s[r] := List.getD_eq_getElem s 0 hr
            rw [← this]
            exact hsz r (by omega)
          have hdsum : d.sum = 0 := by rw [← hbal, hssum]
          have hdz : ∀ x ∈ d, x = 0 :=
            all_zero_of_nonneg_sum_zero d
              (fun x hx => by
                obtain ⟨c, hc, rfl⟩ := List.mem_iff_getElem.mp hx
                have : d.getD c 0 = d[c] := List.getD_eq_getElem d 0 hc
                rw [← this]
                exact hdnn c) hdsum
          refine ⟨hsz, fun c hc => ?_⟩
          have hcl : c < d.length := by omega
          have : d.getD c 0 = d[c] := List.getD_eq_getElem d 0 hcl
          rw [this]
          exact hdz _ (List.getElem_mem hcl)
      exact ⟨fun r hr => by rw [hallzero.1 r hr]; ring,
        fun c hc => by rw [hallzero.2 c hc]; ring⟩

/-- C4: for every balanced Table with nonnegative supply and demand and an
all-zero transport matrix, `north_west_corner` produces a transport matrix
whose row sums equal the original supply and whose column sums equal the
original demand (degenerate steps where both cursors advance included —
the invariant proof covers that case explicitly). -/
theorem C4_theorem (t : Table)
    (hsl : t.supply.length = t.n) (hdl : t.demand.length = t.m)
    (htl : t.transport.data.length = t.n)
    (hrect : ∀ row ∈ t.transport.data, row.length = t.m)
    (hzero : ∀ r c, get2 t.transport.data r c = 0)
    (hsnn : ∀ x ∈ t.supply, (0 : ℤ) ≤ x) (hdnn : ∀ x ∈ t.demand, (0 : ℤ) ≤ x)
    (hbal : t.supply.sum = t.demand.sum) :
    (∀ r, r < t.n → rowSum (t.north_west_corner).transport.data r =
        t.supply.getD r 0) ∧
    (∀ c, c < t.m → colSum (t.north_west_corner).transport.data c =
        t.demand.getD c 0) := by
  have hsnn' : ∀ r, (0 : ℤ) ≤ t.supply.getD r 0 := by
    intro r
    by_cases hr : r < t.supply.length
    · exact hsnn _ (getD_mem _ _ _ hr)
    · rw [List.getD_eq_default _ _ (Nat.le_of_not_lt hr)]
  have hdnn' : ∀ c, (0 : ℤ) ≤ t.demand.getD c 0 := by
    intro c
    by_cases hc : c < t.demand.length
    · exact hdnn _ (getD_mem _ _ _ hc)
    · rw [List.getD_eq_default _ _ (Nat.le_of_not_lt hc)]
  have hzrow : ∀ r, r < t.n → rowSum t.transport.data r = 0 := by
    intro r _
    apply sum_zero_of_forall_zero
    intro x hx
    obtain ⟨c, hc, rfl⟩ := List.mem_iff_getElem.mp hx
    have hgx : get2 t.transport.data r c = (t.transport.data.getD r [])[c] := by
      unfold get2
      exact List.getD_eq_getElem _ 0 hc
    rw [← hgx]
    exact hzero r c
  have hzcol : ∀ c, c < t.m → colSum t.transport.data c = 0 := by
    intro c _
    apply sum_zero_of_forall_zero
    intro x hx
    obtain ⟨row, hrow, rfl⟩ := List.mem_map.mp hx
    obtain ⟨r, hr, rfl⟩ := List.mem_iff_getElem.mp hrow
    have : t.transport.data.getD r [] = t.transport.data[r] :=
      List.getD_eq_getElem _ [] hr
    have hgx : get2 t.transport.data r c = t.transport.data[r].getD c 0 := by
      unfold get2
      rw [this]
    rw [← hgx]
    exact hzero r c
  obtain ⟨hrow, hcol⟩ := nwcLoop_spec t.n t.m (t.n + t.m + 1)
    t.transport.data t.supply t.demand 0 0
    hsl hdl htl hrect (by omega) hsnn' hdnn' hbal
    (by omega) (by omega) (fun r c _ _ => hzero r c)
  constructor
  · intro r hr
    have := hrow r hr
    rw [hzrow r hr] at this
    simpa [Table.north_west_corner] using this
  · intro c hc
    have := hcol c hc
    rw [hzcol c hc] at this
    simpa [Table.north_west_corner] using this

/-- C4 witness: the feasibility conclusion at the concrete balanced
instance of the spec (row sums `[5,5]`, column sums `[6,4]`). -/
theorem C4_witness :
    (∀ r, r < tblEx.n → rowSum (tblEx.north_west_corner).transport.data r =
        tblEx.supply.getD r 0) ∧
    (∀ c, c < tblEx.m → colSum (tblEx.north_west_corner).transport.data c =
        tblEx.demand.getD c 0) :=
  C4_theorem tblEx (by decide) (by decide) (by decide)
    (by decide)
    (fun r c => get2_replicate_zero 2 2 r c)
    (by decide) (by decide) (by decide)

/-! ## Claims C5 and C7 — `k_edge_augmentation` -/

/-- Unfolding of one candidate inspection in the augmentation loop. -/
theorem augLoop_cons {α} (g : Graph α) (k : Nat) (e : Edge α)
    (rest : List (Edge α)) :
    augLoop g k (e :: rest) =
      if containsEdge g.edges e then augLoop g k rest
      else if (Graph.mk g.vertices (g.edges ++ [e])).is_cyclic then
        augLoop g k rest
      else if k - 1 = 0 then (Graph.mk g.vertices (g.edges ++ [e]), 0)
      else augLoop (Graph.mk g.vertices (g.edges ++ [e])) (k - 1) rest :=
  rfl

/-- Unfolding of one candidate inspection in the budget-free greedy count. -/
theorem greedyCount_cons {α} (g : Graph α) (e : Edge α)
    (rest : List (Edge α)) :
    greedyCount g (e :: rest) =
      if containsEdge g.edges e then greedyCount g rest
      else if (Graph.mk g.vertices (g.edges ++ [e])).is_cyclic then
        greedyCount g rest
      else 1 + greedyCount (Graph.mk g.vertices (g.edges ++ [e])) rest :=
  rfl

/-- `contains` under the undirected equality, read entrywise. -/
theorem containsEdge_eq_false {α} (es : List (Edge α)) (e : Edge α)
    (h : containsEdge es e = false) : ∀ x ∈ es, edgeBeq x e = false := by
  intro x hx
  by_contra hb
  have hb' : edgeBeq x e = true := by
    cases hq : edgeBeq x e
    · exact absurd hq hb
    · rfl
  have : containsEdge es e = true := by
    unfold containsEdge
    exact List.any_eq_true.mpr ⟨x, hx, hb'⟩
  rw [this] at h
  cases h

/-- The collected behaviour of the augmentation loop: the remaining budget
never grows, acyclicity (as computed by `is_cyclic`) is preserved, the
vertex list is untouched, edges are only appended, exactly
`k - remaining` edges are gained, undirected duplicates are never
introduced, and the remaining budget is `k - min k (greedyCount)`. -/
theorem augLoop_props {α} :
    ∀ (l : List (Edge α)) (g : Graph α) (k : Nat),
    1 ≤ k →
    g.is_cyclic = false →
    (augLoop g k l).2 ≤ k ∧
    ((augLoop g k l).1).is_cyclic = false ∧
    (augLoop g k l).1.vertices = g.vertices ∧
    (∃ added, (augLoop g k l).1.edges = g.edges ++ added) ∧
    (augLoop g k l).1.edges.length = g.edges.length + (k - (augLoop g k l).2) ∧
    (noDupEdges g.edges → noDupEdges (augLoop g k l).1.edges) ∧
    (augLoop g k l).2 = k - min k (greedyCount g l) := by
  intro l
  induction l with
  | nil =>
    intro g k hk hcy
    refine ⟨Nat.le_refl k, hcy, rfl, ⟨[], by simp [augLoop]⟩, ?_, fun h => h, ?_⟩
    · simp [augLoop]
    · simp [augLoop, greedyCount]
  | cons e rest ih =>
    intro g k hk hcy
    rw [augLoop_cons]
    by_cases hc : containsEdge g.edges e = true
    · rw [if_pos hc]
      have hgc : greedyCount g (e :: rest) = greedyCount g rest := by
        rw [greedyCount_cons, if_pos hc]
      rw [hgc]
      exact ih g k hk hcy
    · have hc' : containsEdge g.edges e = false := by
        cases hq : containsEdge g.edges e
        · rfl
        · exact absurd hq hc
      rw [if_neg hc]
      by_cases hcy' : (Graph.mk g.vertices (g.edges ++ [e])).is_cyclic = true
      · rw [if_pos hcy']
        have hgc : greedyCount g (e :: rest) = greedyCount g rest := by
          rw [greedyCount_cons, if_neg hc, if_pos hcy']
        rw [hgc]
        exact ih g k hk hcy
      · have hcy'' : (Graph.mk g.vertices (g.edges ++ [e])).is_cyclic = false := by
          cases hq : (Graph.mk g.vertices (g.edges ++ [e])).is_cyclic
          · rfl
          · exact absurd hq hcy'
        rw [if_neg hcy']
        have hnodup : noDupEdges g.edges →
            noDupEdges (g.edges ++ [e]) := by
          intro hnd
          unfold noDupEdges
          rw [List.pairwise_append]
          exact ⟨hnd, List.pairwise_singleton _ _,
            fun a ha b hb => by
              have hb' : b = e := by simpa using hb
              rw [hb']
              exact containsEdge_eq_false g.edges e hc' a ha⟩
        have hgc : greedyCount g (e :: rest) =
            1 + greedyCount (Graph.mk g.vertices (g.edges ++ [e])) rest := by
          rw [greedyCount_cons, if_neg hc, if_neg hcy']
        rw [hgc]
        by_cases hk1 : k - 1 = 0
        · rw [if_pos hk1]
          have hkeq : k = 1 := by omega
          refine ⟨by omega, hcy'', rfl, ⟨[e], rfl⟩, ?_, hnodup, ?_⟩
          · simp [hkeq]
          · rw [hkeq]
            have : min 1 (1 + greedyCount (Graph.mk g.vertices (g.edges ++ [e])) rest) = 1 := by
              omega
            rw [this]
        · rw [if_neg hk1]
          obtain ⟨i1, i2, i3, ⟨added, i4⟩, i5, i6, i7⟩ :=
            ih (Graph.mk g.vertices (g.edges ++ [e])) (k - 1) (by omega) hcy''
          refine ⟨by omega, i2, i3, ⟨e :: added, by simpa using i4⟩, ?_, ?_, ?_⟩
          · rw [i5]
            simp only [List.length_append, List.length_cons,
              List.length_nil]
            omega
          · intro hnd
            exact i6 (hnodup hnd)
          · rw [i7]
            have hsucc : min k (1 + greedyCount (Graph.mk g.vertices (g.edges ++ [e])) rest) =
                1 + min (k - 1) (greedyCount (Graph.mk g.vertices (g.edges ++ [e])) rest) := by
              omega
            rw [hsucc]
            omega

/-- C5: whenever `k_edge_augmentation(k, candidates)` (for any candidate
order, hence any shuffle seed) returns success on a graph, with `k ≥ 1`,
the graph gained exactly `k` edges (all appended, vertices untouched), the
result is still acyclic by the graph's own `is_cyclic` test — it was only
produced after that test cleared every addition — and no duplicate
undirected edge was introduced: every added edge was absent under the
undirected equality at the moment it was added, so a duplicate-free edge
list stays duplicate-free. -/
theorem C5_theorem (g : Graph ℤ) (k : Nat) (cands : List (Edge ℤ))
    (g' : Graph ℤ) (hk : 1 ≤ k)
    (h : g.k_edge_augmentation k cands = .ok g') :
    g'.edges.length = g.edges.length + k ∧
    g'.is_cyclic = false ∧
    g'.vertices = g.vertices ∧
    (∃ added, g'.edges = g.edges ++ added) ∧
    (noDupEdges g.edges → noDupEdges g'.edges) := by
  unfold Graph.k_edge_augmentation at h
  by_cases hcon : g.is_connected = true
  · rw [if_pos hcon] at h
    cases h
  · rw [if_neg hcon] at h
    by_cases hcy : g.is_cyclic = true
    · rw [if_pos hcy] at h
      cases h
    · have hcy' : g.is_cyclic = false := by
        cases hq : g.is_cyclic
        · rfl
        · exact absurd hq hcy
      rw [if_neg hcy] at h
      by_cases hr : (augLoop g k (sortEdges cands)).2 > 0
      · rw [if_pos hr] at h
        cases h
      · rw [if_neg hr] at h
        have hg' : (augLoop g k (sortEdges cands)).1 = g' := by
          injection h
        have hr2 : (augLoop g k (sortEdges cands)).2 = 0 := by omega
        obtain ⟨_, p2, p3, p4, p5, p6, _⟩ :=
          augLoop_props (sortEdges cands) g k hk hcy'
        rw [hg'] at p2 p3 p4 p5 p6
        rw [hr2] at p5
        exact ⟨by omega, p2, p3, p4, p6⟩

/-- C5 witness: the spec's scenario — vertices `{A,B,C}`, no edges,
`k = 2`, candidates A–B(1), B–C(2), A–C(3) — succeeds with exactly two
edges added and an acyclic result. -/
theorem C5_witness :
    gABCres.edges.length = gABC.edges.length + 2 ∧
    gABCres.is_cyclic = false := by
  have h := C5_theorem gABC 2 candsABC gABCres (by decide) (by decide)
  exact ⟨h.1, h.2.1⟩

/-- C7: `k_edge_augmentation` fails with `AlreadyConnected` on a connected
graph, with `ContainsCycle` on a disconnected cyclic graph, and — on a
disconnected acyclic graph, for `k ≥ 1` — with `InsufficientEdges` exactly
when the greedy scan over the (sorted, arbitrarily shuffled) candidate list
can add fewer than `k` edges without creating a cycle; each failure is an
explicit returned error. -/
theorem C7_theorem (g : Graph ℤ) (k : Nat) (cands : List (Edge ℤ)) :
    (g.is_connected = true →
      g.k_edge_augmentation k cands = .error .alreadyConnected) ∧
    (g.is_connected = false → g.is_cyclic = true →
      g.k_edge_augmentation k cands = .error .containsCycle) ∧
    (g.is_connected = false → g.is_cyclic = false → 1 ≤ k →
      (g.k_edge_augmentation k cands = .error .insufficientEdges ↔
        greedyCount g (sortEdges cands) < k)) := by
  refine ⟨?_, ?_, ?_⟩
  · intro hcon
    unfold Graph.k_edge_augmentation
    rw [if_pos hcon]
  · intro hcon hcy
    unfold Graph.k_edge_augmentation
    rw [if_neg (by simp [hcon]), if_pos hcy]
  · intro hcon hcy hk
    unfold Graph.k_edge_augmentation
    rw [if_neg (by simp [hcon]), if_neg (by simp [hcy])]
    obtain ⟨_, _, _, _, _, _, p7⟩ := augLoop_props (sortEdges cands) g k hk hcy
    constructor
    · intro h
      by_cases hr : (augLoop g k (sortEdges cands)).2 > 0
      · rcases Nat.le_total k (greedyCount g (sortEdges cands)) with hle | hle
        · rw [Nat.min_eq_left hle] at p7
          omega
        · omega
      · rw [if_neg hr] at h
        cases h
    · intro h
      have hr : (augLoop g k (sortEdges cands)).2 > 0 := by
        rw [p7, Nat.min_eq_right (by omega)]
        omega
      rw [if_pos hr]

/-- C7 witness: on the disconnected acyclic graph `{A,B,C}` with an empty
candidate list and `k = 1`, the call fails with `InsufficientEdges`. -/
theorem C7_witness :
    gABC.k_edge_augmentation 1 [] = .error .insufficientEdges :=
  ((C7_theorem gABC 1 []).2.2 (by decide) (by decide) (by decide)).mpr
    (by decide)

/-! ## Claims C2, C3, C6 — the linear solver

The following blocks establish (i) what the pivot search actually selects,
(ii) that the elimination and back-substitution steps preserve the solution
set of the system, (iii) that on a system with trivial kernel the
elimination never meets a zero pivot, and (iv) the resulting contract of
`Table::potentials` / `Table::marginal_cost` on spanning trees. -/

theorem buildAug_shape (m : Matrix ℤ) (b : List ℤ) :
    AugShape (buildAug m b) m.rows m.cols := by
  constructor
  · simp [buildAug]
  · intro row hrow
    unfold buildAug at hrow
    obtain ⟨i, _, rfl⟩ := List.mem_map.mp hrow
    simp

theorem buildAug_coeff (m : Matrix ℤ) (b : List ℤ) (i c : Nat)
    (hi : i < m.rows) (hc : c < m.cols) :
    ((buildAug m b).getD i []).getD c 0 = ((get2 m.data i c : ℤ) : ℚ) := by
  unfold buildAug
  rw [getD_map_range _ _ _ i, if_pos hi,
    List.getD_append _ _ _ _ (by simpa using hc),
    getD_map_range _ _ _ c, if_pos hc]

theorem buildAug_b (m : Matrix ℤ) (b : List ℤ) (i : Nat) (hi : i < m.rows) :
    ((buildAug m b).getD i []).getD m.cols 0 = ((b.getD i 0 : ℤ) : ℚ) := by
  unfold buildAug
  rw [getD_map_range _ _ _ i, if_pos hi,
    List.getD_append_right _ _ _ _ (by simp)]
  simp

/-! ### The pivot search -/

theorem pivotStep_facts (aug : List (List ℚ)) (j : Nat) (st : Nat × ℚ)
    (k : Nat) (hst : 0 ≤ st.2) :
    st.2 ≤ (pivotStep aug j st k).2 ∧
    |get2 aug k j| ≤ (pivotStep aug j st k).2 ∧
    (pivotStep aug j st k = st ∨
      ((pivotStep aug j st k).1 = k ∧
        (pivotStep aug j st k).2 = |get2 aug k j| ∧
        0 < (pivotStep aug j st k).2)) := by
  unfold pivotStep
  by_cases h1 : get2 aug k j > st.2
  · rw [if_pos h1]
    have hpos : 0 < get2 aug k j := lt_of_le_of_lt hst h1
    exact ⟨le_of_lt h1, le_of_eq (abs_of_pos hpos),
      Or.inr ⟨rfl, (abs_of_pos hpos).symm, hpos⟩⟩
  · rw [if_neg h1]
    by_cases h2 : -get2 aug k j > st.2
    · rw [if_pos h2]
      have hneg : get2 aug k j < 0 := by
        by_contra hpn
        push_neg at hpn
        have : -get2 aug k j ≤ 0 := by linarith
        linarith
      exact ⟨le_of_lt h2, le_of_eq (abs_of_neg hneg),
        Or.inr ⟨rfl, (abs_of_neg hneg).symm, lt_of_le_of_lt hst h2⟩⟩
    · rw [if_neg h2]
      refine ⟨le_refl _, ?_, Or.inl rfl⟩
      push_neg at h1 h2
      exact abs_le.mpr ⟨by linarith, h1⟩

theorem pivotFold_inv (aug : List (List ℚ)) (i j rows : Nat) :
    ∀ (l : List Nat) (st : Nat × ℚ),
    (∀ k ∈ l, i < k ∧ k < rows) →
    ((st.1 = i ∧ st.2 = 0) ∨
      (i < st.1 ∧ st.1 < rows ∧ st.2 = |get2 aug st.1 j| ∧ 0 < st.2)) →
    (((l.foldl (pivotStep aug j) st).1 = i ∧
        (l.foldl (pivotStep aug j) st).2 = 0) ∨
      (i < (l.foldl (pivotStep aug j) st).1 ∧
        (l.foldl (pivotStep aug j) st).1 < rows ∧
        (l.foldl (pivotStep aug j) st).2 =
          |get2 aug (l.foldl (pivotStep aug j) st).1 j| ∧
        0 < (l.foldl (pivotStep aug j) st).2)) ∧
    st.2 ≤ (l.foldl (pivotStep aug j) st).2 ∧
    ∀ k ∈ l, |get2 aug k j| ≤ (l.foldl (pivotStep aug j) st).2 := by
  intro l
  induction l with
  | nil =>
    intro st _ hinv
    exact ⟨hinv, le_refl _, by simp⟩
  | cons k0 rest ih =>
    intro st hmem hinv
    have hk0 := hmem k0 (List.mem_cons_self _ _)
    have hst2 : 0 ≤ st.2 := by
      rcases hinv with ⟨_, h⟩ | ⟨_, _, _, h⟩
      · exact le_of_eq h.symm
      · exact le_of_lt h
    obtain ⟨hmono, hbk0, hcase⟩ := pivotStep_facts aug j st k0 hst2
    have hinv' : ((pivotStep aug j st k0).1 = i ∧
        (pivotStep aug j st k0).2 = 0) ∨
        (i < (pivotStep aug j st k0).1 ∧ (pivotStep aug j st k0).1 < rows ∧
          (pivotStep aug j st k0).2 = |get2 aug (pivotStep aug j st k0).1 j| ∧
          0 < (pivotStep aug j st k0).2) := by
      rcases hcase with h | ⟨h1, h2, h3⟩
      · rw [h]; exact hinv
      · exact Or.inr ⟨by rw [h1]; exact hk0.1, by rw [h1]; exact hk0.2,
          by rw [h1]; exact h2, h3⟩
    obtain ⟨r1, r2, r3⟩ := ih (pivotStep aug j st k0)
      (fun k hk => hmem k (List.mem_cons_of_mem _ hk)) hinv'
    refine ⟨r1, le_trans hmono r2, ?_⟩
    intro k hk
    rcases List.mem_cons.mp hk with hk | hk
    · rw [hk]; exact le_trans hbk0 r2
    · exact r3 k hk

theorem findPivot_spec (aug : List (List ℚ)) (i j rows : Nat) (hi : i < rows) :
    (i ≤ (findPivot aug i j rows).1 ∧ (findPivot aug i j rows).1 < rows) ∧
    (∀ k, i < k → k < rows → |get2 aug k j| ≤ (findPivot aug i j rows).2) ∧
    (((findPivot aug i j rows).1 = i ∧ (findPivot aug i j rows).2 = 0) ∨
      (i < (findPivot aug i j rows).1 ∧ (findPivot aug i j rows).1 < rows ∧
        (findPivot aug i j rows).2 = |get2 aug (findPivot aug i j rows).1 j| ∧
        0 < (findPivot aug i j rows).2)) := by
  unfold findPivot
  have hmem : ∀ k ∈ List.range' (i + 1) (rows - (i + 1)), i < k ∧ k < rows := by
    intro k hk
    rw [List.mem_range'_1] at hk
    omega
  obtain ⟨hinv, _, hbnd⟩ := pivotFold_inv aug i j rows
    (List.range' (i + 1) (rows - (i + 1))) (i, 0) hmem (Or.inl ⟨rfl, rfl⟩)
  refine ⟨?_, ?_, hinv⟩
  · rcases hinv with ⟨h1, _⟩ | ⟨h1, h2, _, _⟩
    · exact ⟨le_of_eq h1.symm, by rw [h1]; exact hi⟩
    · exact ⟨le_of_lt h1, h2⟩
  · intro k hik hkr
    exact hbnd k (by rw [List.mem_range'_1]; omega)

/-! ### Row swap -/

theorem swapRows_length (aug : List (List ℚ)) (i k : Nat) :
    (swapRows aug i k).length = aug.length := by
  simp [swapRows]

theorem swapRows_getD (aug : List (List ℚ)) (i k r : Nat)
    (hr : r < aug.length) :
    (swapRows aug i k).getD r [] =
      if r = i then aug.getD k []
      else if r = k then aug.getD i []
      else aug.getD r [] := by
  unfold swapRows
  rw [getD_map_range _ _ _ r, if_pos hr]

theorem swapRows_shape (aug : List (List ℚ)) (rows n i k : Nat)
    (hsh : AugShape aug rows n) (hi : i < rows) (hk : k < rows) :
    AugShape (swapRows aug i k) rows n := by
  obtain ⟨hlen, hrect⟩ := hsh
  refine ⟨by rw [swapRows_length, hlen], ?_⟩
  intro row hrow
  unfold swapRows at hrow
  obtain ⟨r, hrmem, rfl⟩ := List.mem_map.mp hrow
  rw [List.mem_range] at hrmem
  by_cases h1 : r = i
  · rw [if_pos h1]
    exact hrect _ (getD_mem _ _ _ (by omega))
  · rw [if_neg h1]
    by_cases h2 : r = k
    · rw [if_pos h2]
      exact hrect _ (getD_mem _ _ _ (by omega))
    · rw [if_neg h2]
      exact hrect _ (getD_mem _ _ _ (by omega))

theorem forallRows_swap (P : List ℚ → Prop) (aug : List (List ℚ))
    (rows i k : Nat) (hlen : aug.length = rows) (hi : i < rows)
    (hk : k < rows) :
    (∀ r, r < rows → P ((swapRows aug i k).getD r [])) ↔
    (∀ r, r < rows → P (aug.getD r [])) := by
  constructor
  · intro h r hr
    by_cases hri : r = i
    · have hh := h k hk
      rw [swapRows_getD aug i k k (by omega)] at hh
      by_cases hki : k = i
      · rw [if_pos hki] at hh
        rw [hri, ← hki]
        exact hh
      · rw [if_neg hki, if_pos rfl] at hh
        rw [hri]
        exact hh
    · by_cases hrk : r = k
      · have hh := h i hi
        rw [swapRows_getD aug i k i (by omega), if_pos rfl] at hh
        rw [hrk]
        exact hh
      · have hh := h r hr
        rw [swapRows_getD aug i k r (by omega), if_neg hri, if_neg hrk] at hh
        exact hh
  · intro h r hr
    rw [swapRows_getD aug i k r (by omega)]
    by_cases hri : r = i
    · rw [if_pos hri]
      exact h k hk
    · rw [if_neg hri]
      by_cases hrk : r = k
      · rw [if_pos hrk]
        exact h i hi
      · rw [if_neg hrk]
        exact h r hr

theorem ZInv_swapRows (aug : List (List ℚ)) (rows i k : Nat)
    (hlen : aug.length = rows) (hik : i ≤ k) (hk : k < rows)
    (hz : ZInv aug rows i) : ZInv (swapRows aug i k) rows i := by
  intro c hc r hcr hr
  show ((swapRows aug i k).getD r []).getD c 0 = 0
  rw [swapRows_getD aug i k r (by omega)]
  by_cases hri : r = i
  · rw [if_pos hri]
    exact hz c hc k (by omega) hk
  · rw [if_neg hri]
    by_cases hrk : r = k
    · rw [if_pos hrk]
      exact hz c hc i hc (by omega)
    · rw [if_neg hrk]
      exact hz c hc r hcr hr

theorem DiagInv_swapRows (aug : List (List ℚ)) (rows i k : Nat)
    (hlen : aug.length = rows) (hik : i ≤ k) (hk : k < rows)
    (hd : DiagInv aug i) : DiagInv (swapRows aug i k) i := by
  have _hik := hik
  intro r hr
  show ((swapRows aug i k).getD r []).getD r 0 ≠ 0
  rw [swapRows_getD aug i k r (by omega), if_neg (by omega), if_neg (by omega)]
  exact hd r hr

/-! ### The elimination step -/

theorem subRow_length (row base : List ℚ) (f : ℚ) (j : Nat) :
    (subRow row base f j).length = row.length := by
  simp [subRow]

theorem subRow_getD (row base : List ℚ) (f : ℚ) (j c : Nat)
    (hc : c < row.length) :
    (subRow row base f j).getD c 0 =
      if j ≤ c then row.getD c 0 - base.getD c 0 * f else row.getD c 0 := by
  unfold subRow
  rw [getD_map_range _ _ _ c, if_pos hc]

theorem elimBelow_length (aug : List (List ℚ)) (i j : Nat) (p : ℚ) :
    (elimBelow aug i j p).length = aug.length := by
  simp [elimBelow]

theorem elimBelow_getD (aug : List (List ℚ)) (i j : Nat) (p : ℚ) (r : Nat)
    (hr : r < aug.length) :
    (elimBelow aug i j p).getD r [] =
      if i + 1 ≤ r then
        subRow (aug.getD r []) (aug.getD i []) (get2 aug r j / p) j
      else aug.getD r [] := by
  unfold elimBelow
  rw [getD_map_range _ _ _ r, if_pos hr]

theorem elimBelow_shape (aug : List (List ℚ)) (rows n i j : Nat) (p : ℚ)
    (hsh : AugShape aug rows n) : AugShape (elimBelow aug i j p) rows n := by
  obtain ⟨hlen, hrect⟩ := hsh
  refine ⟨by rw [elimBelow_length, hlen], ?_⟩
  intro row hrow
  unfold elimBelow at hrow
  obtain ⟨r, hrmem, rfl⟩ := List.mem_map.mp hrow
  rw [List.mem_range] at hrmem
  by_cases h1 : i + 1 ≤ r
  · rw [if_pos h1, subRow_length]
    exact hrect _ (getD_mem _ _ _ hrmem)
  · rw [if_neg h1]
    exact hrect _ (getD_mem _ _ _ hrmem)

theorem rowDot_subRow (row base : List ℚ) (f : ℚ) (j n : Nat)
    (hrow : row.length = n + 1) (hj : j ≤ n)
    (hbz : ∀ c, c < j → base.getD c 0 = 0) (x : Nat → ℚ) :
    rowDot (subRow row base f j) n x = rowDot row n x - f * rowDot base n x ∧
    (subRow row base f j).getD n 0 = row.getD n 0 - f * base.getD n 0 := by
  constructor
  · unfold rowDot
    have h1 : ∀ c ∈ Finset.range n, (subRow row base f j).getD c 0 * x c =
        row.getD c 0 * x c - f * (base.getD c 0 * x c) := by
      intro c hc
      rw [Finset.mem_range] at hc
      rw [subRow_getD row base f j c (by omega)]
      by_cases hjc : j ≤ c
      · rw [if_pos hjc]
        ring
      · rw [if_neg hjc, hbz c (by omega)]
        ring
    rw [Finset.sum_congr rfl h1, Finset.sum_sub_distrib, ← Finset.mul_sum]
  · rw [subRow_getD row base f j n (by omega), if_pos hj]
    ring

theorem satRow_subRow_iff (row base : List ℚ) (f : ℚ) (j n : Nat)
    (hrow : row.length = n + 1) (hj : j ≤ n)
    (hbz : ∀ c, c < j → base.getD c 0 = 0) (x : Nat → ℚ)
    (hbase : satRow base n x) :
    (satRow (subRow row base f j) n x ↔ satRow row n x) := by
  obtain ⟨h1, h2⟩ := rowDot_subRow row base f j n hrow hj hbz x
  unfold satRow at hbase ⊢
  rw [h1, h2, hbase]
  constructor <;> intro h <;> linarith

theorem homRow_subRow_iff (row base : List ℚ) (f : ℚ) (j n : Nat)
    (hrow : row.length = n + 1) (hj : j ≤ n)
    (hbz : ∀ c, c < j → base.getD c 0 = 0) (x : Nat → ℚ)
    (hbase : homRow base n x) :
    (homRow (subRow row base f j) n x ↔ homRow row n x) := by
  obtain ⟨h1, _⟩ := rowDot_subRow row base f j n hrow hj hbz x
  unfold homRow at hbase ⊢
  rw [h1, hbase, mul_zero, sub_zero]

theorem satAug_elimBelow_iff (aug : List (List ℚ)) (rows n i j : Nat)
    (p : ℚ) (x : Nat → ℚ) (hsh : AugShape aug rows n) (hi : i < rows)
    (hj : j ≤ n) (hbz : ∀ c, c < j → (aug.getD i []).getD c 0 = 0) :
    (satAug (elimBelow aug i j p) rows n x ↔ satAug aug rows n x) := by
  obtain ⟨hlen, hrect⟩ := hsh
  have hrl : ∀ r, r < rows → (aug.getD r []).length = n + 1 := fun r hr =>
    hrect _ (getD_mem _ _ _ (by omega))
  constructor
  · intro h r hr
    have hbase : satRow (aug.getD i []) n x := by
      have hh := h i hi
      rw [elimBelow_getD aug i j p i (by omega), if_neg (by omega)] at hh
      exact hh
    have hh := h r hr
    rw [elimBelow_getD aug i j p r (by omega)] at hh
    by_cases hri : i + 1 ≤ r
    · rw [if_pos hri] at hh
      exact (satRow_subRow_iff _ _ _ _ _ (hrl r hr) hj hbz x hbase).mp hh
    · rw [if_neg hri] at hh
      exact hh
  · intro h r hr
    have hbase : satRow (aug.getD i []) n x := h i hi
    rw [elimBelow_getD aug i j p r (by omega)]
    by_cases hri : i + 1 ≤ r
    · rw [if_pos hri]
      exact (satRow_subRow_iff _ _ _ _ _ (hrl r hr) hj hbz x hbase).mpr (h r hr)
    · rw [if_neg hri]
      exact h r hr

theorem satHom_elimBelow_iff (aug : List (List ℚ)) (rows n i j : Nat)
    (p : ℚ) (x : Nat → ℚ) (hsh : AugShape aug rows n) (hi : i < rows)
    (hj : j ≤ n) (hbz : ∀ c, c < j → (aug.getD i []).getD c 0 = 0) :
    (satHom (elimBelow aug i j p) rows n x ↔ satHom aug rows n x) := by
  obtain ⟨hlen, hrect⟩ := hsh
  have hrl : ∀ r, r < rows → (aug.getD r []).length = n + 1 := fun r hr =>
    hrect _ (getD_mem _ _ _ (by omega))
  constructor
  · intro h r hr
    have hbase : homRow (aug.getD i []) n x := by
      have hh := h i hi
      rw [elimBelow_getD aug i j p i (by omega), if_neg (by omega)] at hh
      exact hh
    have hh := h r hr
    rw [elimBelow_getD aug i j p r (by omega)] at hh
    by_cases hri : i + 1 ≤ r
    · rw [if_pos hri] at hh
      exact (homRow_subRow_iff _ _ _ _ _ (hrl r hr) hj hbz x hbase).mp hh
    · rw [if_neg hri] at hh
      exact hh
  · intro h r hr
    have hbase : homRow (aug.getD i []) n x := h i hi
    rw [elimBelow_getD aug i j p r (by omega)]
    by_cases hri : i + 1 ≤ r
    · rw [if_pos hri]
      exact (homRow_subRow_iff _ _ _ _ _ (hrl r hr) hj hbz x hbase).mpr (h r hr)
    · rw [if_neg hri]
      exact h r hr

theorem ZInv_elimBelow (aug : List (List ℚ)) (rows n i : Nat) (p : ℚ)
    (hsh : AugShape aug rows n) (hi : i < rows) (hin : i ≤ n)
    (hp : p ≠ 0) (hpv : get2 aug i i = p) (hz : ZInv aug rows i) :
    ZInv (elimBelow aug i i p) rows (i + 1) := by
  obtain ⟨hlen, hrect⟩ := hsh
  have hrl : ∀ r, r < rows → (aug.getD r []).length = n + 1 := fun r hr =>
    hrect _ (getD_mem _ _ _ (by omega))
  intro c hc r hcr hr
  show ((elimBelow aug i i p).getD r []).getD c 0 = 0
  rw [elimBelow_getD aug i i p r (by omega)]
  by_cases hri : i + 1 ≤ r
  · rw [if_pos hri, subRow_getD _ _ _ _ c (by rw [hrl r hr]; omega)]
    by_cases hci : c < i
    · rw [if_neg (by omega)]
      exact hz c hci r (by omega) hr
    · have hceq : c = i := by omega
      rw [if_pos (by omega), hceq]
      have hbi : (aug.getD i []).getD i 0 = p := hpv
      rw [hbi]
      show get2 aug r i - p * (get2 aug r i / p) = 0
      rw [mul_comm, div_mul_cancel₀ _ hp, sub_self]
  · rw [if_neg hri]
    exact hz c (by omega) r hcr hr

theorem DiagInv_elimBelow (aug : List (List ℚ)) (rows i : Nat) (p : ℚ)
    (hlen : aug.length = rows) (hi : i < rows) (hp : p ≠ 0)
    (hpv : get2 aug i i = p) (hd : DiagInv aug i) :
    DiagInv (elimBelow aug i i p) (i + 1) := by
  intro r hr
  show ((elimBelow aug i i p).getD r []).getD r 0 ≠ 0
  rw [elimBelow_getD aug i i p r (by omega), if_neg (by omega)]
  by_cases hri : r = i
  · rw [hri]
    show get2 aug i i ≠ 0
    rw [hpv]
    exact hp
  · exact hd r (by omega)

/-! ### The kernel vector produced by an all-zero pivot subcolumn -/

theorem kvec_high (aug : List (List ℚ)) (i : Nat) :
    ∀ s c, i < c → kvecAux aug i s c = 0 := by
  intro s
  induction s with
  | zero =>
    intro c hc
    simp only [kvecAux]
    rw [if_neg (by omega)]
  | succ s ih =>
    intro c hc
    simp only [kvecAux]
    rw [if_neg (by omega)]
    exact ih c hc

theorem kvec_stable (aug : List (List ℚ)) (i : Nat) :
    ∀ t, t ≤ i → ∀ s, s ≤ t → ∀ c, i - s ≤ c →
    kvecAux aug i t c = kvecAux aug i s c := by
  intro t
  induction t with
  | zero =>
    intro _ s hs c _
    have hzs : s = 0 := by omega
    rw [hzs]
  | succ t ih =>
    intro ht s hs c hc
    by_cases hst : s = t + 1
    · rw [hst]
    · have hs' : s ≤ t := by omega
      have hne : c ≠ i - (t + 1) := by omega
      simp only [kvecAux]
      rw [if_neg hne]
      exact ih (by omega) s hs' c (by omega)

theorem kvec_at_i (aug : List (List ℚ)) (i : Nat) : kvecAux aug i i i = 1 := by
  have h := kvec_stable aug i i (le_refl i) 0 (Nat.zero_le _) i (by omega)
  rw [h]
  simp [kvecAux]

theorem kvec_eq (aug : List (List ℚ)) (i r : Nat) (hr : r < i) :
    kvecAux aug i i r =
      -(∑ t ∈ Finset.Ioc r i, get2 aug r t * kvecAux aug i i t) /
        get2 aug r r := by
  have h1 : kvecAux aug i i r = kvecAux aug i (i - r) r :=
    kvec_stable aug i i (le_refl i) (i - r) (by omega) r (by omega)
  obtain ⟨s', hs'⟩ : ∃ s', i - r = s' + 1 := ⟨i - r - 1, by omega⟩
  rw [h1, hs']
  have hidx : i - (s' + 1) = r := by omega
  simp only [kvecAux]
  rw [if_pos hidx.symm, hidx]
  congr 2
  apply Finset.sum_congr rfl
  intro t ht
  rw [Finset.mem_Ioc] at ht
  rw [kvec_stable aug i i (le_refl i) s' (by omega) t (by omega)]

theorem kvec_kernel (aug : List (List ℚ)) (rows i : Nat)
    (hi : i < rows) (hsh : AugShape aug rows rows)
    (hz : ZInv aug rows i) (hd : DiagInv aug i)
    (hcol : ∀ r, i ≤ r → r < rows → get2 aug r i = 0) :
    kvecAux aug i i i = 1 ∧ satHom aug rows rows (kvecAux aug i i) := by
  refine ⟨kvec_at_i aug i, ?_⟩
  intro r hr
  show (∑ c ∈ Finset.range rows, get2 aug r c * kvecAux aug i i c) = 0
  by_cases hri : r < i
  · have hsplit :
        (∑ c ∈ Finset.range rows, get2 aug r c * kvecAux aug i i c) =
        ∑ c ∈ Finset.Icc r i, get2 aug r c * kvecAux aug i i c := by
      symm
      apply Finset.sum_subset
      · intro c hc
        rw [Finset.mem_Icc] at hc
        rw [Finset.mem_range]
        omega
      · intro c hcr hnotin
        rw [Finset.mem_range] at hcr
        rw [Finset.mem_Icc] at hnotin
        push_neg at hnotin
        by_cases hcr2 : c < r
        · rw [hz c (by omega) r (by omega) (by omega), zero_mul]
        · have hic : i < c := hnotin (by omega)
          rw [kvec_high aug i i c hic, mul_zero]
    rw [hsplit]
    have herase :
        (∑ c ∈ Finset.Icc r i, get2 aug r c * kvecAux aug i i c) =
        get2 aug r r * kvecAux aug i i r +
          ∑ c ∈ Finset.Ioc r i, get2 aug r c * kvecAux aug i i c := by
      rw [← Finset.Icc_erase_left]
      exact (Finset.add_sum_erase _ _
        (Finset.mem_Icc.mpr ⟨le_refl r, by omega⟩)).symm
    rw [herase, kvec_eq aug i r hri, mul_comm,
      div_mul_cancel₀ _ (hd r hri)]
    exact neg_add_cancel _
  · apply Finset.sum_eq_zero
    intro c hc
    rw [Finset.mem_range] at hc
    by_cases hci : c < i
    · rw [hz c hci r (by omega) hr, zero_mul]
    · by_cases hcie : c = i
      · rw [hcie, hcol r (by omega) hr, zero_mul]
      · rw [kvec_high aug i i c (by omega), mul_zero]

/-! ### The elimination loop -/

theorem elimLoop_step (fuel : Nat) (aug : List (List ℚ))
    (i j rows cols : Nat) (hg : i < rows ∧ j < cols) :
    elimLoop (fuel + 1) aug i j rows cols =
      if get2 (swapRows aug i (findPivot aug i j rows).1) i j = 0 then none
      else
        elimLoop fuel
          (elimBelow (swapRows aug i (findPivot aug i j rows).1) i j
            (get2 (swapRows aug i (findPivot aug i j rows).1) i j))
          (i + 1) (j + 1) rows cols := by
  simp only [elimLoop, if_pos hg]

theorem elimLoop_stop (fuel : Nat) (aug : List (List ℚ))
    (i j rows cols : Nat) (hg : ¬(i < rows ∧ j < cols)) :
    elimLoop (fuel + 1) aug i j rows cols = some aug := by
  simp only [elimLoop, if_neg hg]

/-- Soundness of the elimination loop: whatever it returns is a triangular
matrix with nonzero diagonal whose (inhomogeneous and homogeneous) solution
sets are those of the input. -/
theorem elimLoop_sound (rows : Nat) :
    ∀ (fuel : Nat) (aug : List (List ℚ)) (i : Nat) (aug' : List (List ℚ)),
    rows - i < fuel → i ≤ rows →
    AugShape aug rows rows → ZInv aug rows i → DiagInv aug i →
    elimLoop fuel aug i i rows (rows + 1) = some aug' →
    AugShape aug' rows rows ∧ ZInv aug' rows rows ∧ DiagInv aug' rows ∧
    (∀ x, satAug aug' rows rows x ↔ satAug aug rows rows x) ∧
    (∀ x, satHom aug' rows rows x ↔ satHom aug rows rows x) := by
  intro fuel
  induction fuel with
  | zero =>
    intro aug i aug' hfuel
    omega
  | succ fuel ih =>
    intro aug i aug' hfuel hi hsh hz hd hrun
    by_cases hg : i < rows
    · rw [elimLoop_step fuel aug i i rows (rows + 1) ⟨hg, by omega⟩] at hrun
      obtain ⟨⟨hk1, hk2⟩, hbnd, hcase⟩ := findPivot_spec aug i i rows hg
      by_cases hp : get2 (swapRows aug i (findPivot aug i i rows).1) i i = 0
      · rw [if_pos hp] at hrun
        cases hrun
      · rw [if_neg hp] at hrun
        have hsh1 := swapRows_shape aug rows rows i
          (findPivot aug i i rows).1 hsh hg hk2
        have hz1 := ZInv_swapRows aug rows i (findPivot aug i i rows).1
          hsh.1 hk1 hk2 hz
        have hd1 := DiagInv_swapRows aug rows i (findPivot aug i i rows).1
          hsh.1 hk1 hk2 hd
        have hz2 := ZInv_elimBelow (swapRows aug i (findPivot aug i i rows).1)
          rows rows i _ hsh1 hg (by omega) hp rfl hz1
        have hd2 := DiagInv_elimBelow
          (swapRows aug i (findPivot aug i i rows).1) rows i _ hsh1.1 hg hp
          rfl hd1
        have hsh2 := elimBelow_shape
          (swapRows aug i (findPivot aug i i rows).1) rows rows i i
          (get2 (swapRows aug i (findPivot aug i i rows).1) i i) hsh1
        obtain ⟨c1, c2, c3, c4, c5⟩ := ih _ (i + 1) aug' (by omega) (by omega)
          hsh2 hz2 hd2 hrun
        have hbz1 : ∀ c, c < i →
            ((swapRows aug i (findPivot aug i i rows).1).getD i []).getD c 0
              = 0 := by
          intro c hc
          exact hz1 c hc i hc hg
        refine ⟨c1, c2, c3, ?_, ?_⟩
        · intro x
          rw [c4 x, satAug_elimBelow_iff
            (swapRows aug i (findPivot aug i i rows).1) rows rows i i _ x hsh1
            hg (by omega) hbz1]
          exact forallRows_swap (fun row => satRow row rows x) aug rows i
            (findPivot aug i i rows).1 hsh.1 hg hk2
        · intro x
          rw [c5 x, satHom_elimBelow_iff
            (swapRows aug i (findPivot aug i i rows).1) rows rows i i _ x hsh1
            hg (by omega) hbz1]
          exact forallRows_swap (fun row => homRow row rows x) aug rows i
            (findPivot aug i i rows).1 hsh.1 hg hk2
    · rw [elimLoop_stop fuel aug i i rows (rows + 1) (by omega)] at hrun
      have haug : aug = aug' := by injection hrun
      subst haug
      have hieq : i = rows := by omega
      rw [hieq] at hz hd
      exact ⟨hsh, hz, hd, fun x => Iff.rfl, fun x => Iff.rfl⟩

/-- Totality of the elimination loop on systems with trivial kernel: the
`SingularMatrix` panic is unreachable. -/
theorem elimLoop_total (rows : Nat) :
    ∀ (fuel : Nat) (aug : List (List ℚ)) (i : Nat),
    rows - i < fuel → i ≤ rows →
    AugShape aug rows rows → ZInv aug rows i → DiagInv aug i →
    (∀ x, satHom aug rows rows x → ∀ c, c < rows → x c = 0) →
    ∃ aug', elimLoop fuel aug i i rows (rows + 1) = some aug' := by
  intro fuel
  induction fuel with
  | zero =>
    intro aug i hfuel
    omega
  | succ fuel ih =>
    intro aug i hfuel hi hsh hz hd hker
    by_cases hg : i < rows
    · rw [elimLoop_step fuel aug i i rows (rows + 1) ⟨hg, by omega⟩]
      obtain ⟨⟨hk1, hk2⟩, hbnd, hcase⟩ := findPivot_spec aug i i rows hg
      by_cases hp : get2 (swapRows aug i (findPivot aug i i rows).1) i i = 0
      · exfalso
        have hswap_ii : get2 (swapRows aug i (findPivot aug i i rows).1) i i =
            get2 aug (findPivot aug i i rows).1 i := by
          show ((swapRows aug i (findPivot aug i i rows).1).getD i []).getD i 0
            = _
          rw [swapRows_getD aug i (findPivot aug i i rows).1 i
            (by rw [hsh.1]; exact hg), if_pos rfl]
          rfl
        rw [hswap_ii] at hp
        have hcol : ∀ r, i ≤ r → r < rows → get2 aug r i = 0 := by
          intro r hir hr
          rcases hcase with ⟨hke, hmx⟩ | ⟨_, _, hmxeq, hmxpos⟩
          · by_cases hri : r = i
            · rw [hri]
              rw [hke] at hp
              exact hp
            · have hb := hbnd r (by omega) hr
              rw [hmx] at hb
              exact abs_eq_zero.mp (le_antisymm hb (abs_nonneg _))
          · rw [hp, abs_zero] at hmxeq
            rw [hmxeq] at hmxpos
            exact absurd hmxpos (lt_irrefl 0)
        obtain ⟨hx1, hx2⟩ := kvec_kernel aug rows i hg hsh hz hd hcol
        have hcontra := hker (kvecAux aug i i) hx2 i hg
        rw [hx1] at hcontra
        exact one_ne_zero hcontra
      · rw [if_neg hp]
        have hsh1 := swapRows_shape aug rows rows i
          (findPivot aug i i rows).1 hsh hg hk2
        have hz1 := ZInv_swapRows aug rows i (findPivot aug i i rows).1
          hsh.1 hk1 hk2 hz
        have hd1 := DiagInv_swapRows aug rows i (findPivot aug i i rows).1
          hsh.1 hk1 hk2 hd
        have hz2 := ZInv_elimBelow (swapRows aug i (findPivot aug i i rows).1)
          rows rows i _ hsh1 hg (by omega) hp rfl hz1
        have hd2 := DiagInv_elimBelow
          (swapRows aug i (findPivot aug i i rows).1) rows i _ hsh1.1 hg hp
          rfl hd1
        have hsh2 := elimBelow_shape
          (swapRows aug i (findPivot aug i i rows).1) rows rows i i
          (get2 (swapRows aug i (findPivot aug i i rows).1) i i) hsh1
        have hbz1 : ∀ c, c < i →
            ((swapRows aug i (findPivot aug i i rows).1).getD i []).getD c 0
              = 0 := by
          intro c hc
          exact hz1 c hc i hc hg
        apply ih _ (i + 1) (by omega) (by omega) hsh2 hz2 hd2
        intro x hx
        apply hker x
        have h1 := (satHom_elimBelow_iff
          (swapRows aug i (findPivot aug i i rows).1) rows rows i i _ x hsh1
          hg (by omega) hbz1).mp hx
        exact (forallRows_swap (fun row => homRow row rows x) aug rows i
          (findPivot aug i i rows).1 hsh.1 hg hk2).mp h1
    · exact ⟨aug, elimLoop_stop fuel aug i i rows (rows + 1) (by omega)⟩

/-! ### Back-substitution -/

theorem backSub_succ (n steps : Nat) (aug : List (List ℚ)) (sol : List ℚ) :
    backSub n (steps + 1) aug sol =
      backSub n steps
        ((List.range aug.length).map (fun r =>
          if r < steps then
            (aug.getD r []).set n
              (get2 aug r n - get2 aug r steps *
                (get2 aug steps n / get2 aug steps steps))
          else aug.getD r []))
        (sol.set steps (get2 aug steps n / get2 aug steps steps)) :=
  rfl

/-- Back-substitution solves an upper-triangular system with nonzero
diagonal: downward induction on the countdown, tracking the mutated
right-hand column. -/
theorem backSub_spec (n : Nat) (aug0 : List (List ℚ))
    (hz0 : ZInv aug0 n n) (hd0 : DiagInv aug0 n) :
    ∀ (steps : Nat) (aug : List (List ℚ)) (sol : List ℚ),
    steps ≤ n →
    aug.length = n →
    (∀ row ∈ aug, row.length = n + 1) →
    (∀ r, r < n → ∀ c, c < n → get2 aug r c = get2 aug0 r c) →
    (∀ r, r < steps → get2 aug r n =
      get2 aug0 r n -
        ∑ c ∈ Finset.Ico steps n, get2 aug0 r c * sol.getD c 0) →
    sol.length = n →
    (∀ r, steps ≤ r → r < n →
      satRow (aug0.getD r []) n (fun c => sol.getD c 0)) →
    (backSub n steps aug sol).length = n ∧
    ∀ r, r < n →
      satRow (aug0.getD r []) n (fun c => (backSub n steps aug sol).getD c 0)
    := by
  intro steps
  induction steps with
  | zero =>
    intro aug sol _ _ _ _ _ hsol hdone
    exact ⟨hsol, fun r hr => hdone r (Nat.zero_le r) hr⟩
  | succ steps ih =>
    intro aug sol hsteps hlen hrect hcoef hb hsol hdone
    rw [backSub_succ]
    have hstepslt : steps < n := by omega
    have hrowlen : ∀ r, r < n → (aug.getD r []).length = n + 1 := fun r hr =>
      hrect _ (getD_mem _ _ _ (by omega))
    have hdiag : get2 aug steps steps = get2 aug0 steps steps :=
      hcoef steps hstepslt steps hstepslt
    have hd0s : get2 aug0 steps steps ≠ 0 := hd0 steps hstepslt
    have hbs : get2 aug steps n = get2 aug0 steps n -
        ∑ c ∈ Finset.Ico (steps + 1) n, get2 aug0 steps c * sol.getD c 0 :=
      hb steps (by omega)
    have hxival : get2 aug steps n / get2 aug steps steps =
        (get2 aug0 steps n -
          ∑ c ∈ Finset.Ico (steps + 1) n, get2 aug0 steps c * sol.getD c 0) /
          get2 aug0 steps steps := by
      rw [hbs, hdiag]
    -- facts about the updated matrix and vector
    have haug'len : ((List.range aug.length).map (fun r =>
        if r < steps then
          (aug.getD r []).set n
            (get2 aug r n - get2 aug r steps *
              (get2 aug steps n / get2 aug steps steps))
        else aug.getD r [])).length = n := by
      simp [hlen]
    have haug'getD : ∀ r, r < n →
        ((List.range aug.length).map (fun r =>
          if r < steps then
            (aug.getD r []).set n
              (get2 aug r n - get2 aug r steps *
                (get2 aug steps n / get2 aug steps steps))
          else aug.getD r [])).getD r [] =
        if r < steps then
          (aug.getD r []).set n
            (get2 aug r n - get2 aug r steps *
              (get2 aug steps n / get2 aug steps steps))
        else aug.getD r [] := by
      intro r hr
      rw [getD_map_range _ _ _ r, if_pos (by omega)]
    have hsol'getD_eq : (sol.set steps
        (get2 aug steps n / get2 aug steps steps)).getD steps 0 =
        get2 aug steps n / get2 aug steps steps :=
      getD_set_self _ _ _ _ (by omega)
    have hsol'getD_ne : ∀ c, c ≠ steps → (sol.set steps
        (get2 aug steps n / get2 aug steps steps)).getD c 0 = sol.getD c 0 :=
      fun c hc => getD_set_ne _ _ _ _ _ (fun hh => hc hh.symm)
    -- the new row `steps` is now satisfied
    have hrowsteps : satRow (aug0.getD steps []) n
        (fun c => (sol.set steps
          (get2 aug steps n / get2 aug steps steps)).getD c 0) := by
      show (∑ c ∈ Finset.range n, get2 aug0 steps c *
        (sol.set steps (get2 aug steps n / get2 aug steps steps)).getD c 0) =
        get2 aug0 steps n
      rw [Finset.range_eq_Ico,
        ← Finset.sum_Ico_consecutive _ (Nat.zero_le steps) (le_of_lt hstepslt)]
      have hfirst : (∑ c ∈ Finset.Ico 0 steps, get2 aug0 steps c *
          (sol.set steps (get2 aug steps n / get2 aug steps steps)).getD c 0)
          = 0 := by
        apply Finset.sum_eq_zero
        intro c hc
        rw [Finset.mem_Ico] at hc
        rw [hz0 c (by omega) steps (by omega) hstepslt, zero_mul]
      rw [hfirst, zero_add,
        Finset.sum_eq_sum_Ico_succ_bot hstepslt, hsol'getD_eq]
      have hrest : (∑ c ∈ Finset.Ico (steps + 1) n, get2 aug0 steps c *
          (sol.set steps (get2 aug steps n / get2 aug steps steps)).getD c 0)
          = ∑ c ∈ Finset.Ico (steps + 1) n,
            get2 aug0 steps c * sol.getD c 0 := by
        apply Finset.sum_congr rfl
        intro c hc
        rw [Finset.mem_Ico] at hc
        rw [hsol'getD_ne c (by omega)]
      rw [hrest, hxival, mul_comm, div_mul_cancel₀ _ hd0s]
      ring
    -- previously satisfied rows stay satisfied
    have hdone' : ∀ r, steps ≤ r → r < n →
        satRow (aug0.getD r []) n
          (fun c => (sol.set steps
            (get2 aug steps n / get2 aug steps steps)).getD c 0) := by
      intro r hsr hr
      by_cases hreq : r = steps
      · rw [hreq]
        exact hrowsteps
      · have hrgt : steps < r := by omega
        have hold := hdone r (by omega) hr
        show (∑ c ∈ Finset.range n, get2 aug0 r c *
          (sol.set steps (get2 aug steps n / get2 aug steps steps)).getD c 0)
          = get2 aug0 r n
        have hcongr : ∀ c ∈ Finset.range n, get2 aug0 r c *
            (sol.set steps
              (get2 aug steps n / get2 aug steps steps)).getD c 0 =
            get2 aug0 r c * sol.getD c 0 := by
          intro c hc
          by_cases hcs : c = steps
          · rw [hcs, hz0 steps hstepslt r hrgt hr, zero_mul, zero_mul]
          · rw [hsol'getD_ne c hcs]
        rw [Finset.sum_congr rfl hcongr]
        exact hold
    -- invariant on the mutated right-hand column
    have hb' : ∀ r, r < steps →
        get2 ((List.range aug.length).map (fun r =>
          if r < steps then
            (aug.getD r []).set n
              (get2 aug r n - get2 aug r steps *
                (get2 aug steps n / get2 aug steps steps))
          else aug.getD r [])) r n =
        get2 aug0 r n - ∑ c ∈ Finset.Ico steps n, get2 aug0 r c *
          (sol.set steps (get2 aug steps n / get2 aug steps steps)).getD c 0
        := by
      intro r hr
      show (((List.range aug.length).map _).getD r []).getD n 0 = _
      rw [haug'getD r (by omega), if_pos hr,
        getD_set_self _ _ _ _ (by rw [hrowlen r (by omega)]; omega)]
      rw [Finset.sum_eq_sum_Ico_succ_bot hstepslt, hsol'getD_eq]
      have hrest : (∑ c ∈ Finset.Ico (steps + 1) n, get2 aug0 r c *
          (sol.set steps (get2 aug steps n / get2 aug steps steps)).getD c 0)
          = ∑ c ∈ Finset.Ico (steps + 1) n, get2 aug0 r c * sol.getD c 0 := by
        apply Finset.sum_congr rfl
        intro c hc
        rw [Finset.mem_Ico] at hc
        rw [hsol'getD_ne c (by omega)]
      rw [hrest, hb r (by omega), hcoef r (by omega) steps hstepslt]
      ring
    -- coefficients unchanged
    have hcoef' : ∀ r, r < n → ∀ c, c < n →
        get2 ((List.range aug.length).map (fun r =>
          if r < steps then
            (aug.getD r []).set n
              (get2 aug r n - get2 aug r steps *
                (get2 aug steps n / get2 aug steps steps))
          else aug.getD r [])) r c = get2 aug0 r c := by
      intro r hr c hc
      show (((List.range aug.length).map _).getD r []).getD c 0 = _
      rw [haug'getD r hr]
      by_cases hrs : r < steps
      · rw [if_pos hrs, getD_set_ne _ _ _ _ _ (by omega)]
        exact hcoef r hr c hc
      · rw [if_neg hrs]
        exact hcoef r hr c hc
    -- shape of the mutated matrix
    have hrect' : ∀ row ∈ (List.range aug.length).map (fun r =>
        if r < steps then
          (aug.getD r []).set n
            (get2 aug r n - get2 aug r steps *
              (get2 aug steps n / get2 aug steps steps))
        else aug.getD r []), row.length = n + 1 := by
      intro row hrow
      obtain ⟨r, hrmem, rfl⟩ := List.mem_map.mp hrow
      rw [List.mem_range] at hrmem
      by_cases hrs : r < steps
      · rw [if_pos hrs, List.length_set]
        exact hrect _ (getD_mem _ _ _ hrmem)
      · rw [if_neg hrs]
        exact hrect _ (getD_mem _ _ _ hrmem)
    exact ih _ _ (by omega) haug'len hrect' hcoef' hb'
      (by rw [List.length_set]; exact hsol) hdone'

/-! ### The contract of `Matrix::solve` -/

theorem buildAug_rowDot (A : Matrix ℤ) (b : List ℤ) (r : Nat)
    (hr : r < A.rows) (x : Nat → ℚ) :
    rowDot ((buildAug A b).getD r []) A.cols x =
      ∑ c ∈ Finset.range A.cols, ((get2 A.data r c : ℤ) : ℚ) * x c := by
  unfold rowDot
  apply Finset.sum_congr rfl
  intro c hc
  rw [Finset.mem_range] at hc
  rw [buildAug_coeff A b r c hr hc]

/-- Soundness of `Matrix::solve` on square systems: a returned solution
satisfies every equation of `A·x = b`. -/
theorem solve_sound (A : Matrix ℤ) (b : List ℤ) (x : List ℚ)
    (hsq : A.cols = A.rows) (h : A.solve b = some x) :
    x.length = A.rows ∧
    ∀ r, r < A.rows →
      (∑ c ∈ Finset.range A.rows, ((get2 A.data r c : ℤ) : ℚ) * x.getD c 0) =
        ((b.getD r 0 : ℤ) : ℚ) := by
  unfold Matrix.solve at h
  rw [hsq] at h
  obtain ⟨augE, hE, hx⟩ := Option.map_eq_some'.mp h
  have hshape := buildAug_shape A b
  rw [hsq] at hshape
  obtain ⟨shE, zE, dE, satEq, _⟩ := elimLoop_sound A.rows (A.rows + 1)
    (buildAug A b) 0 augE (by omega) (Nat.zero_le _) hshape
    (fun c hc => absurd hc (Nat.not_lt_zero c))
    (fun r hr => absurd hr (Nat.not_lt_zero r)) hE
  obtain ⟨hxlen, hsat⟩ := backSub_spec A.rows augE zE dE A.rows augE
    (List.replicate A.rows 0) (le_refl _) shE.1 shE.2
    (fun r _ c _ => rfl)
    (by
      intro r _
      rw [Finset.Ico_self, Finset.sum_empty, sub_zero])
    (by simp)
    (fun r hsr hr => absurd (Nat.lt_of_le_of_lt hsr hr) (lt_irrefl _))
  rw [hx] at hxlen hsat
  constructor
  · exact hxlen
  · intro r hr
    have hsatB : satAug (buildAug A b) A.rows A.rows (fun c => x.getD c 0) :=
      (satEq (fun c => x.getD c 0)).mp (fun r' hr' => hsat r' hr')
    have hrow := hsatB r hr
    unfold satRow at hrow
    have hcoeff := buildAug_rowDot A b r hr (fun c => x.getD c 0)
    rw [hsq] at hcoeff
    rw [hcoeff] at hrow
    have hbent := buildAug_b A b r hr
    rw [hsq] at hbent
    rw [hbent] at hrow
    exact hrow

/-- Totality of `Matrix::solve` on square systems with trivial kernel: the
`SingularMatrix` panic cannot fire and a solution is produced. -/
theorem solve_total (A : Matrix ℤ) (b : List ℤ)
    (hsq : A.cols = A.rows)
    (hker : ∀ x : Nat → ℚ,
      (∀ r, r < A.rows →
        (∑ c ∈ Finset.range A.rows, ((get2 A.data r c : ℤ) : ℚ) * x c) = 0) →
      ∀ c, c < A.rows → x c = 0) :
    ∃ x, A.solve b = some x := by
  unfold Matrix.solve
  rw [hsq]
  have hshape := buildAug_shape A b
  rw [hsq] at hshape
  have hker' : ∀ x, satHom (buildAug A b) A.rows A.rows x →
      ∀ c, c < A.rows → x c = 0 := by
    intro x hx
    apply hker x
    intro r hr
    have hrow := hx r hr
    unfold homRow at hrow
    have hcoeff := buildAug_rowDot A b r hr x
    rw [hsq] at hcoeff
    rw [hcoeff] at hrow
    exact hrow
  obtain ⟨augE, hE⟩ := elimLoop_total A.rows (A.rows + 1) (buildAug A b) 0
    (by omega) (Nat.zero_le _) hshape
    (fun c hc => absurd hc (Nat.not_lt_zero c))
    (fun r hr => absurd hr (Nat.not_lt_zero r)) hker'
  rw [hE]
  exact ⟨_, rfl⟩

/-! ## Claim C2 — the pivot rule of `Matrix::solve` -/

/-- C2 counterexample: on the augmented matrix `[[2,0,2],[1,1,2]]` at step
`i = 0`, column `0`, the selected pivot row does *not* carry the largest
absolute value among rows `0..1`: the scan starts at row `i+1` with the
running maximum at `0`, so row 0's entry `2` is never compared and row 1
(absolute value `1`) is swapped up. -/
theorem C2_counterexample :
    ¬ (∀ k, k < 2 →
      |get2 augC2 k 0| ≤ |get2 augC2 (findPivot augC2 0 0 2).1 0|) := by
  decide

/-- C2 (amended): at each elimination step for column `j`, `solve` selects
the pivot among the rows *strictly below* `i` — every row `k` with
`i < k < rows` has `|aug[k][j]|` bounded by the selected row's entry, and
the selected row is either a strictly-lower row with nonzero entry or row
`i` itself (kept when the rows below are all zero in column `j`); row `i`'s
own entry never takes part in the comparison.  Elimination below the pivot
and back-substitution then follow, and any returned solution of a square
system satisfies every equation of `A·x = b`. -/
theorem C2_amended :
    (∀ (aug : List (List ℚ)) (i j rows : Nat), i < rows →
      (i ≤ (findPivot aug i j rows).1 ∧ (findPivot aug i j rows).1 < rows) ∧
      (∀ k, i < k → k < rows →
        |get2 aug k j| ≤ |get2 aug (findPivot aug i j rows).1 j|) ∧
      ((findPivot aug i j rows).1 = i ∨
        (i < (findPivot aug i j rows).1 ∧
          0 < |get2 aug (findPivot aug i j rows).1 j|))) ∧
    (∀ (A : Matrix ℤ) (b : List ℤ) (x : List ℚ), A.cols = A.rows →
      A.solve b = some x →
      ∀ r, r < A.rows →
        (∑ c ∈ Finset.range A.rows,
          ((get2 A.data r c : ℤ) : ℚ) * x.getD c 0) =
          ((b.getD r 0 : ℤ) : ℚ)) := by
  constructor
  · intro aug i j rows hi
    obtain ⟨⟨hk1, hk2⟩, hbnd, hcase⟩ := findPivot_spec aug i j rows hi
    rcases hcase with ⟨hke, hmx⟩ | ⟨h1, _, h3, h4⟩
    · refine ⟨⟨hk1, hk2⟩, ?_, Or.inl hke⟩
      intro k hik hkr
      have hb := hbnd k hik hkr
      rw [hmx] at hb
      exact le_trans hb (abs_nonneg _)
    · refine ⟨⟨hk1, hk2⟩, ?_, Or.inr ⟨h1, by rw [← h3]; exact h4⟩⟩
      intro k hik hkr
      have hb := hbnd k hik hkr
      rw [h3] at hb
      exact hb
  · intro A b x hsq h r hr
    exact (solve_sound A b x hsq h).2 r hr

/-- C2 witness: the amended pivot property at the concrete matrix
`[[2,0,2],[1,1,2]]`, and the soundness conclusion on the concrete solved
system `[[2]]·x = [4]` (whose solution is `[2]`). -/
theorem C2_witness :
    ((0 ≤ (findPivot augC2 0 0 2).1 ∧ (findPivot augC2 0 0 2).1 < 2) ∧
      (∀ k, 0 < k → k < 2 →
        |get2 augC2 k 0| ≤ |get2 augC2 (findPivot augC2 0 0 2).1 0|) ∧
      ((findPivot augC2 0 0 2).1 = 0 ∨
        (0 < (findPivot augC2 0 0 2).1 ∧
          0 < |get2 augC2 (findPivot augC2 0 0 2).1 0|))) ∧
    (∀ r, r < (Matrix.new ([[2]] : List (List ℤ))).rows →
      (∑ c ∈ Finset.range (Matrix.new ([[2]] : List (List ℤ))).rows,
        ((get2 (Matrix.new ([[2]] : List (List ℤ))).data r c : ℤ) : ℚ) *
          ([2] : List ℚ).getD c 0) =
        ((([4] : List ℤ).getD r 0 : ℤ) : ℚ)) := by
  constructor
  · exact C2_amended.1 augC2 0 0 2 (by omega)
  · apply C2_amended.2 (Matrix.new ([[2]] : List (List ℤ))) [4] [2] (by decide)
    have h1 : elimLoop ((Matrix.new ([[2]] : List (List ℤ))).rows + 1)
        (buildAug (Matrix.new ([[2]] : List (List ℤ))) [4]) 0 0
        (Matrix.new ([[2]] : List (List ℤ))).rows
        ((Matrix.new ([[2]] : List (List ℤ))).cols + 1) = some [[2, 4]] := by
      decide
    unfold Matrix.solve
    rw [h1]
    show some (backSub 1 1 [[2, 4]] (List.replicate 1 0)) = some [2]
    have h2 : backSub 1 1 [[2, 4]] (List.replicate 1 0) = [(4 : ℚ) / 2] := by
      rfl
    rw [h2]
    norm_num

/-! ## Claims C3 and C6 — `potentials` and `marginal_cost` -/

theorem fillSystem_cons (costs : List (List ℤ)) (n : Nat) (e : Edge ℤ)
    (rest : List (Edge ℤ)) (a : List (List ℤ)) (b : List ℤ) (l : Nat)
    (i j : Nat) (hsi : sIndex e.src = some i) (hdj : dIndex e.dst = some j) :
    fillSystem costs n (e :: rest) (a, b, l) =
      fillSystem costs n rest
        (set2 (set2 a l (i - 1) 1) l (n + j - 1) (-1),
          b.set l (get2 costs (i - 1) (j - 1)), l + 1) := by
  simp only [fillSystem, hsi, hdj]

/-- What the fill loop of `potentials` writes: one row per edge carrying
`+1` at index `i-1` and `-1` at index `n+j-1` with the cell cost as its
right-hand side, everything at or beyond the final counter untouched. -/
theorem fillSystem_spec (costs : List (List ℤ)) (n m : Nat) :
    ∀ (es : List (Edge ℤ)) (a : List (List ℤ)) (b : List ℤ) (l : Nat),
    a.length = n + m →
    (∀ row ∈ a, row.length = n + m) →
    b.length = n + m →
    l + es.length ≤ n + m →
    (∀ r, l ≤ r → ∀ c, get2 a r c = 0) →
    (∀ e ∈ es, ∃ i j, sIndex e.src = some i ∧ dIndex e.dst = some j ∧
      1 ≤ i ∧ i ≤ n ∧ 1 ≤ j ∧ j ≤ m) →
    (fillSystem costs n es (a, b, l)).2.2 = l + es.length ∧
    (fillSystem costs n es (a, b, l)).1.length = n + m ∧
    (∀ row ∈ (fillSystem costs n es (a, b, l)).1, row.length = n + m) ∧
    (fillSystem costs n es (a, b, l)).2.1.length = n + m ∧
    (∀ r, r < l ∨ l + es.length ≤ r →
      (∀ c, get2 (fillSystem costs n es (a, b, l)).1 r c = get2 a r c) ∧
      (fillSystem costs n es (a, b, l)).2.1.getD r 0 = b.getD r 0) ∧
    (∀ e ∈ es, ∀ i j, sIndex e.src = some i → dIndex e.dst = some j →
      ∃ r, l ≤ r ∧ r < l + es.length ∧
        (∀ c, get2 (fillSystem costs n es (a, b, l)).1 r c =
          (if c = i - 1 then 1 else if c = n + j - 1 then -1 else 0)) ∧
        (fillSystem costs n es (a, b, l)).2.1.getD r 0 =
          get2 costs (i - 1) (j - 1)) := by
  intro es
  induction es with
  | nil =>
    intro a b l ha hrect hb hbound hz _
    refine ⟨by simp [fillSystem], by simp [fillSystem, ha],
      by simp only [fillSystem]; exact hrect, by simp [fillSystem, hb],
      ?_, by simp⟩
    intro r _
    exact ⟨fun c => by simp [fillSystem], by simp [fillSystem]⟩
  | cons e rest ih =>
    intro a b l ha hrect hb hbound hz hedges
    obtain ⟨i, j, hsi, hdj, hi1, hin, hj1, hjm⟩ :=
      hedges e (List.mem_cons_self _ _)
    rw [fillSystem_cons costs n e rest a b l i j hsi hdj]
    have hlsz : l < n + m := by
      have := hbound
      simp only [List.length_cons] at this
      omega
    have hrowl : (a.getD l []).length = n + m :=
      hrect _ (getD_mem _ _ _ (by omega))
    have hrowl1 : ((set2 a l (i - 1) 1).getD l []).length = n + m := by
      have hmem := shape_set2 a l (i - 1) 1 (n + m) hrect (by omega)
      exact hmem _ (getD_mem _ _ _ (by rw [length_set2]; omega))
    -- shape of the once- and twice-written grids
    have hlen2 : (set2 (set2 a l (i - 1) 1) l (n + j - 1) (-1)).length =
        n + m := by
      rw [length_set2, length_set2, ha]
    have hrect2 : ∀ row ∈ set2 (set2 a l (i - 1) 1) l (n + j - 1) (-1),
        row.length = n + m := by
      apply shape_set2
      · exact shape_set2 a l (i - 1) 1 (n + m) hrect (by omega)
      · rw [length_set2]
        omega
    -- the written row's contents
    have hrowval : ∀ c,
        get2 (set2 (set2 a l (i - 1) 1) l (n + j - 1) (-1)) l c =
        (if c = i - 1 then 1 else if c = n + j - 1 then -1 else 0) := by
      intro c
      by_cases hc2 : c = n + j - 1
      · rw [hc2, get2_set2_eq _ _ _ _ (by rw [length_set2]; omega)
          (by rw [hrowl1]; omega)]
        rw [if_neg (by omega), if_pos rfl]
      · rw [get2_set2_ne _ _ _ _ _ _ (by intro hh; exact hc2 hh.2)]
        by_cases hc1 : c = i - 1
        · rw [hc1, get2_set2_eq _ _ _ _ (by omega) (by rw [hrowl]; omega)]
          rw [if_pos rfl]
        · rw [get2_set2_ne _ _ _ _ _ _ (by intro hh; exact hc1 hh.2),
            if_neg hc1, if_neg hc2]
          exact hz l (le_refl l) c
    -- rows other than `l` are untouched by the two writes
    have hother : ∀ r, r ≠ l → ∀ c,
        get2 (set2 (set2 a l (i - 1) 1) l (n + j - 1) (-1)) r c =
        get2 a r c := by
      intro r hr c
      rw [get2_set2_ne _ _ _ _ _ _ (by intro hh; exact hr hh.1),
        get2_set2_ne _ _ _ _ _ _ (by intro hh; exact hr hh.1)]
    obtain ⟨g1, g2, g3, g4, g5, g6⟩ := ih
      (set2 (set2 a l (i - 1) 1) l (n + j - 1) (-1))
      (b.set l (get2 costs (i - 1) (j - 1))) (l + 1)
      hlen2 hrect2 (by rw [List.length_set]; exact hb)
      (by
        have := hbound
        simp only [List.length_cons] at this
        omega)
      (by
        intro r hr c
        rw [hother r (by omega) c]
        exact hz r (by omega) c)
      (fun e' he' => hedges e' (List.mem_cons_of_mem _ he'))
    refine ⟨by rw [g1]; simp; omega, g2, g3, g4, ?_, ?_⟩
    · -- untouched rows
      intro r hr
      have hrl : r ≠ l := by
        simp only [List.length_cons] at hr
        omega
      have hr' : r < l + 1 ∨ l + 1 + rest.length ≤ r := by
        simp only [List.length_cons] at hr
        omega
      obtain ⟨hc, hbres⟩ := g5 r hr'
      refine ⟨fun c => by rw [hc c, hother r hrl c], ?_⟩
      rw [hbres, getD_set_ne _ _ _ _ _ (fun hh => hrl hh.symm)]
    · -- one row per edge
      intro e' he' i' j' hsi' hdj'
      rcases List.mem_cons.mp he' with he'' | he''
      · -- the edge just written, at row l
        have hii : i' = i := by
          rw [he''] at hsi'
          rw [hsi] at hsi'
          exact Option.some.inj hsi'.symm
        have hjj : j' = j := by
          rw [he''] at hdj'
          rw [hdj] at hdj'
          exact Option.some.inj hdj'.symm
        obtain ⟨hc, hbres⟩ := g5 l (Or.inl (by omega))
        refine ⟨l, le_refl l, by simp only [List.length_cons]; omega,
          ?_, ?_⟩
        · intro c
          rw [hc c, hrowval c, hii, hjj]
        · rw [hbres, getD_set_self _ _ _ _ (by omega), hii, hjj]
      · -- an edge of the tail, at a later row
        obtain ⟨r, hr1, hr2, hrv, hrb⟩ := g6 e' he'' i' j' hsi' hdj'
        exact ⟨r, by omega, by simp only [List.length_cons]; omega, hrv, hrb⟩

theorem oneEntryDot (size p : Nat) (hp : p < size) (x : Nat → ℚ)
    (f : Nat → ℤ) (hf : ∀ c, f c = (if c = p then 1 else 0)) :
    (∑ c ∈ Finset.range size, ((f c : ℤ) : ℚ) * x c) = x p := by
  have hcongr : ∀ c ∈ Finset.range size,
      ((f c : ℤ) : ℚ) * x c = (if c = p then x c else 0) := by
    intro c _
    rw [hf c]
    split_ifs with h1
    · push_cast
      ring
    · push_cast
      ring
  rw [Finset.sum_congr rfl hcongr,
    Finset.sum_ite_eq' (Finset.range size) p (fun c => x c),
    if_pos (Finset.mem_range.mpr hp)]

theorem twoEntryDot (size p q : Nat) (hp : p < size) (hq : q < size)
    (hpq : p ≠ q) (x : Nat → ℚ) (f : Nat → ℤ)
    (hf : ∀ c, f c = (if c = p then 1 else if c = q then -1 else 0)) :
    (∑ c ∈ Finset.range size, ((f c : ℤ) : ℚ) * x c) = x p - x q := by
  have hcongr : ∀ c ∈ Finset.range size, ((f c : ℤ) : ℚ) * x c =
      (if c = p then x c else 0) + (if c = q then -x c else 0) := by
    intro c _
    rw [hf c]
    split_ifs with h1 h2 h2
    · exfalso
      omega
    · push_cast
      ring
    · push_cast
      ring
    · push_cast
      ring
  rw [Finset.sum_congr rfl hcongr, Finset.sum_add_distrib,
    Finset.sum_ite_eq' (Finset.range size) p (fun c => x c),
    Finset.sum_ite_eq' (Finset.range size) q (fun c => -x c),
    if_pos (Finset.mem_range.mpr hp), if_pos (Finset.mem_range.mpr hq)]
  ring

theorem edgePairs_mem (n : Nat) (es : List (Edge ℤ)) (pr : Nat × Nat)
    (h : pr ∈ edgePairs n es) :
    ∃ e ∈ es, ∃ i j, sIndex e.src = some i ∧ dIndex e.dst = some j ∧
      pr = (i - 1, n + j - 1) := by
  unfold edgePairs at h
  obtain ⟨e, he, hpe⟩ := List.mem_filterMap.mp h
  cases hsi : sIndex e.src with
  | none =>
    simp only [hsi] at hpe
    exact Option.noConfusion hpe
  | some i =>
    cases hdj : dIndex e.dst with
    | none =>
      simp only [hsi, hdj] at hpe
      exact Option.noConfusion hpe
    | some j =>
      simp only [hsi, hdj, Option.some.injEq] at hpe
      exact ⟨e, he, i, j, hsi, hdj, hpe.symm⟩

theorem reachClosure_sound (ps : List (Nat × Nat)) (x : Nat → ℚ)
    (hx0 : x 0 = 0) (hps : ∀ p ∈ ps, x p.1 = x p.2) :
    ∀ fuel q, q ∈ reachClosure ps fuel → x q = 0 := by
  intro fuel
  induction fuel with
  | zero =>
    intro q hq
    have hq0 : q = 0 := by simpa [reachClosure] using hq
    rw [hq0]
    exact hx0
  | succ fuel ih =>
    intro q hq
    simp only [reachClosure] at hq
    rcases List.mem_append.mp hq with hq | hq
    · exact ih q hq
    · obtain ⟨p, hp, hpq⟩ := List.mem_filterMap.mp hq
      by_cases h1 : p.1 ∈ reachClosure ps fuel ∧ p.2 ∉ reachClosure ps fuel
      · rw [if_pos h1] at hpq
        injection hpq with hpq
        rw [← hpq, ← hps p hp]
        exact ih p.1 h1.1
      · rw [if_neg h1] at hpq
        by_cases h2 : p.2 ∈ reachClosure ps fuel ∧ p.1 ∉ reachClosure ps fuel
        · rw [if_pos h2] at hpq
          injection hpq with hpq
          rw [← hpq, hps p hp]
          exact ih p.2 h2.1
        · rw [if_neg h2] at hpq
          cases hpq

/-- Unfolding of `Table::potentials` with the `let`-bound filled system
expanded. -/
theorem potentials_def (t : Table) (g : Graph ℤ) :
    t.potentials g =
      if g.is_tree then
        if (fillSystem t.costs.data t.n g.edges
            ((Matrix.new_empty ℤ (t.n + t.m) (t.n + t.m)).data,
              List.replicate (t.n + t.m) 0, 0)).2.2 < t.n + t.m then
          (Matrix.solve
            { data := set2
                (fillSystem t.costs.data t.n g.edges
                  ((Matrix.new_empty ℤ (t.n + t.m) (t.n + t.m)).data,
                    List.replicate (t.n + t.m) 0, 0)).1
                (fillSystem t.costs.data t.n g.edges
                  ((Matrix.new_empty ℤ (t.n + t.m) (t.n + t.m)).data,
                    List.replicate (t.n + t.m) 0, 0)).2.2 0 1,
              rows := t.n + t.m, cols := t.n + t.m }
            ((fillSystem t.costs.data t.n g.edges
                ((Matrix.new_empty ℤ (t.n + t.m) (t.n + t.m)).data,
                  List.replicate (t.n + t.m) 0, 0)).2.1.set
              (fillSystem t.costs.data t.n g.edges
                ((Matrix.new_empty ℤ (t.n + t.m) (t.n + t.m)).data,
                  List.replicate (t.n + t.m) 0, 0)).2.2 0)).map
            (fun sol =>
              ((List.range t.n).map (fun i => sol.getD i 0),
                (List.range t.m).map (fun j => sol.getD (t.n + j) 0)))
        else none
      else none :=
  rfl

/-- The core contract of `Table::potentials` on spanning trees of the
bipartite transportation graph: it succeeds, and the returned potentials
satisfy every tree-edge equation together with the normalization
`u[0] = 0`. -/
theorem potentials_spec (t : Table) (g : Graph ℤ)
    (htree : g.is_tree = true)
    (hn : 1 ≤ t.n) (hm : 1 ≤ t.m)
    (hedge : ∀ e ∈ g.edges, ∃ i j, sIndex e.src = some i ∧
      dIndex e.dst = some j ∧ 1 ≤ i ∧ i ≤ t.n ∧ 1 ≤ j ∧ j ≤ t.m)
    (hcount : g.edges.length = t.n + t.m - 1)
    (hconn : ∀ p, p < t.n + t.m →
      p ∈ reachClosure (edgePairs t.n g.edges) (t.n + t.m)) :
    ∃ u v, t.potentials g = some (u, v) ∧
      u.length = t.n ∧ v.length = t.m ∧ u.getD 0 0 = 0 ∧
      ∀ e ∈ g.edges, ∀ i j, sIndex e.src = some i → dIndex e.dst = some j →
        u.getD (i - 1) 0 - v.getD (j - 1) 0 =
          ((get2 t.costs.data (i - 1) (j - 1) : ℤ) : ℚ) := by
  have hz0 : ∀ r c,
      get2 (Matrix.new_empty ℤ (t.n + t.m) (t.n + t.m)).data r c = 0 :=
    fun r c => get2_replicate_zero _ _ r c
  obtain ⟨f1, f2, f3, f4, f5, f6⟩ := fillSystem_spec t.costs.data t.n t.m
    g.edges (Matrix.new_empty ℤ (t.n + t.m) (t.n + t.m)).data
    (List.replicate (t.n + t.m) 0) 0
    (by simp [Matrix.new_empty])
    (by
      intro row hrow
      simp only [Matrix.new_empty] at hrow
      rw [List.eq_of_mem_replicate hrow]
      simp)
    (by simp)
    (by omega)
    (fun r _ c => hz0 r c)
    hedge
  have hst2 : (fillSystem t.costs.data t.n g.edges
      ((Matrix.new_empty ℤ (t.n + t.m) (t.n + t.m)).data,
        List.replicate (t.n + t.m) 0, 0)).2.2 = t.n + t.m - 1 := by
    rw [f1]
    omega
  rw [potentials_def, if_pos htree, hst2, if_pos (by omega)]
  have hrowlen : ∀ r, r < t.n + t.m →
      ((fillSystem t.costs.data t.n g.edges
        ((Matrix.new_empty ℤ (t.n + t.m) (t.n + t.m)).data,
          List.replicate (t.n + t.m) 0, 0)).1.getD r []).length =
        t.n + t.m := by
    intro r hr
    exact f3 _ (getD_mem _ _ _ (by rw [f2]; omega))
  -- the normalization row
  have hnorm : ∀ c, get2 (set2
      (fillSystem t.costs.data t.n g.edges
        ((Matrix.new_empty ℤ (t.n + t.m) (t.n + t.m)).data,
          List.replicate (t.n + t.m) 0, 0)).1 (t.n + t.m - 1) 0 1)
      (t.n + t.m - 1) c = (if c = 0 then 1 else 0) := by
    intro c
    by_cases hc : c = 0
    · rw [hc, get2_set2_eq _ _ _ _ (by rw [f2]; omega)
        (by rw [hrowlen (t.n + t.m - 1) (by omega)]; omega), if_pos rfl]
    · rw [get2_set2_ne _ _ _ _ _ _ (fun hh => hc hh.2), if_neg hc]
      rw [(f5 (t.n + t.m - 1) (Or.inr (by omega))).1 c]
      exact hz0 _ c
  have hbnorm : (((fillSystem t.costs.data t.n g.edges
      ((Matrix.new_empty ℤ (t.n + t.m) (t.n + t.m)).data,
        List.replicate (t.n + t.m) 0, 0)).2.1.set
      (t.n + t.m - 1) 0)).getD (t.n + t.m - 1) 0 = 0 := by
    rw [getD_set_self _ _ _ _ (by rw [f4]; omega)]
  -- one row per tree edge, still present after the normalization write
  have hrowedge : ∀ e ∈ g.edges, ∀ i j, sIndex e.src = some i →
      dIndex e.dst = some j →
      ∃ r, r < t.n + t.m - 1 ∧
        (∀ c, get2 (set2
          (fillSystem t.costs.data t.n g.edges
            ((Matrix.new_empty ℤ (t.n + t.m) (t.n + t.m)).data,
              List.replicate (t.n + t.m) 0, 0)).1 (t.n + t.m - 1) 0 1) r c =
          (if c = i - 1 then 1 else if c = t.n + j - 1 then -1 else 0)) ∧
        ((fillSystem t.costs.data t.n g.edges
          ((Matrix.new_empty ℤ (t.n + t.m) (t.n + t.m)).data,
            List.replicate (t.n + t.m) 0, 0)).2.1.set
          (t.n + t.m - 1) 0).getD r 0 =
          get2 t.costs.data (i - 1) (j - 1) := by
    intro e he i j hsi hdj
    obtain ⟨r, _, hr2, hrv, hrb⟩ := f6 e he i j hsi hdj
    have hrlt : r < t.n + t.m - 1 := by omega
    refine ⟨r, hrlt, ?_, ?_⟩
    · intro c
      rw [get2_set2_ne _ _ _ _ _ _ (fun hh => absurd hh.1 (by omega))]
      exact hrv c
    · rw [getD_set_ne _ _ _ _ _ (by omega)]
      exact hrb
  -- trivial kernel of the assembled system
  have hker : ∀ x : Nat → ℚ,
      (∀ r, r < t.n + t.m →
        (∑ c ∈ Finset.range (t.n + t.m),
          ((get2 (set2
            (fillSystem t.costs.data t.n g.edges
              ((Matrix.new_empty ℤ (t.n + t.m) (t.n + t.m)).data,
                List.replicate (t.n + t.m) 0, 0)).1
            (t.n + t.m - 1) 0 1) r c : ℤ) : ℚ) * x c) = 0) →
      ∀ c, c < t.n + t.m → x c = 0 := by
    intro x hx
    have hx0 : x 0 = 0 := by
      have h := hx (t.n + t.m - 1) (by omega)
      rw [oneEntryDot (t.n + t.m) 0 (by omega) x _ hnorm] at h
      exact h
    have hpairs : ∀ p ∈ edgePairs t.n g.edges, x p.1 = x p.2 := by
      intro p hp
      obtain ⟨e, he, i, j, hsi, hdj, hpe⟩ := edgePairs_mem t.n g.edges p hp
      obtain ⟨i0, j0, hsi0, hdj0, hi1, hin, hj1, hjm⟩ := hedge e he
      have hii : i0 = i := Option.some.inj (hsi0.symm.trans hsi)
      have hjj : j0 = j := Option.some.inj (hdj0.symm.trans hdj)
      obtain ⟨r, hrlt, hrv, _⟩ := hrowedge e he i j hsi hdj
      have h := hx r (by omega)
      rw [twoEntryDot (t.n + t.m) (i - 1) (t.n + j - 1) (by omega)
        (by omega) (by omega) x _ hrv] at h
      rw [hpe]
      show x (i - 1) = x (t.n + j - 1)
      linarith
    intro c hc
    exact reachClosure_sound (edgePairs t.n g.edges) x hx0 hpairs
      (t.n + t.m) c (hconn c hc)
  obtain ⟨sol, hsol⟩ := solve_total
    { data := set2
        (fillSystem t.costs.data t.n g.edges
          ((Matrix.new_empty ℤ (t.n + t.m) (t.n + t.m)).data,
            List.replicate (t.n + t.m) 0, 0)).1 (t.n + t.m - 1) 0 1,
      rows := t.n + t.m, cols := t.n + t.m }
    ((fillSystem t.costs.data t.n g.edges
      ((Matrix.new_empty ℤ (t.n + t.m) (t.n + t.m)).data,
        List.replicate (t.n + t.m) 0, 0)).2.1.set (t.n + t.m - 1) 0)
    rfl hker
  obtain ⟨hsollen, heqs⟩ := solve_sound _ _ sol rfl hsol
  rw [hsol]
  refine ⟨_, _, rfl, by simp, by simp, ?_, ?_⟩
  · rw [getD_map_range _ _ _ 0, if_pos (by omega)]
    have h := heqs (t.n + t.m - 1) (by show t.n + t.m - 1 < t.n + t.m; omega)
    rw [oneEntryDot (t.n + t.m) 0 (by omega) (fun c => sol.getD c 0) _
      hnorm] at h
    rw [hbnorm] at h
    simpa using h
  · intro e he i j hsi hdj
    obtain ⟨i0, j0, hsi0, hdj0, hi1, hin, hj1, hjm⟩ := hedge e he
    have hii : i0 = i := Option.some.inj (hsi0.symm.trans hsi)
    have hjj : j0 = j := Option.some.inj (hdj0.symm.trans hdj)
    obtain ⟨r, hrlt, hrv, hrb⟩ := hrowedge e he i j hsi hdj
    have h := heqs r (by show r < t.n + t.m; omega)
    rw [twoEntryDot (t.n + t.m) (i - 1) (t.n + j - 1) (by omega) (by omega)
      (by omega) (fun c => sol.getD c 0) _ hrv] at h
    rw [hrb] at h
    rw [getD_map_range _ _ _ (i - 1), if_pos (by omega),
      getD_map_range _ _ _ (j - 1), if_pos (by omega)]
    have hidx : t.n + (j - 1) = t.n + j - 1 := by omega
    rw [hidx]
    exact h

/-- C3: for every Table and every graph accepted by `potentials`
(`is_tree` holds, edges exactly the `S{i}–D{j}` labels of a spanning tree
of the bipartite transportation graph: `n+m-1` edges, parseable endpoints
in range, connecting every unknown to the first), `potentials` succeeds
and returns `(u, v)` with `u_i - v_j = cost[i-1][j-1]` exactly on every
tree edge and `u_1 = 0`. -/
theorem C3_theorem (t : Table) (g : Graph ℤ)
    (htree : g.is_tree = true)
    (hn : 1 ≤ t.n) (hm : 1 ≤ t.m)
    (hedge : ∀ e ∈ g.edges, ∃ i j, sIndex e.src = some i ∧
      dIndex e.dst = some j ∧ 1 ≤ i ∧ i ≤ t.n ∧ 1 ≤ j ∧ j ≤ t.m)
    (hcount : g.edges.length = t.n + t.m - 1)
    (hconn : ∀ p, p < t.n + t.m →
      p ∈ reachClosure (edgePairs t.n g.edges) (t.n + t.m)) :
    ∃ u v, t.potentials g = some (u, v) ∧
      u.length = t.n ∧ v.length = t.m ∧ u.getD 0 0 = 0 ∧
      ∀ e ∈ g.edges, ∀ i j, sIndex e.src = some i → dIndex e.dst = some j →
        u.getD (i - 1) 0 - v.getD (j - 1) 0 =
          ((get2 t.costs.data (i - 1) (j - 1) : ℤ) : ℚ) :=
  potentials_spec t g htree hn hm hedge hcount hconn

/-- C3 witness: the contract at the concrete table `tblEx` and the
spanning tree S1–D1, S1–D2, S2–D2. -/
theorem C3_witness :
    ∃ u v, tblEx.potentials gTEx = some (u, v) ∧
      u.length = tblEx.n ∧ v.length = tblEx.m ∧ u.getD 0 0 = 0 ∧
      ∀ e ∈ gTEx.edges, ∀ i j,
        sIndex e.src = some i → dIndex e.dst = some j →
        u.getD (i - 1) 0 - v.getD (j - 1) 0 =
          ((get2 tblEx.costs.data (i - 1) (j - 1) : ℤ) : ℚ) :=
  C3_theorem tblEx gTEx (by decide) (by decide) (by decide)
    (by
      intro e he
      simp only [gTEx, List.mem_cons, List.not_mem_nil, or_false] at he
      rcases he with rfl | rfl | rfl
      · exact ⟨1, 1, by decide, by decide, by decide, by decide, by decide,
          by decide⟩
      · exact ⟨1, 2, by decide, by decide, by decide, by decide, by decide,
          by decide⟩
      · exact ⟨2, 2, by decide, by decide, by decide, by decide, by decide,
          by decide⟩)
    (by decide) (by decide)

/-- C6: for every Table and spanning-tree graph accepted by `potentials`,
`marginal_cost` returns the n×m matrix whose entry `(i, j)` is
`cost[i][j] - (u_i - v_j)` for the potentials of that graph, at every
cell; consequently the entry is exactly `0` at every cell whose edge
`S{i}–D{j}` lies in the tree. -/
theorem C6_theorem (t : Table) (g : Graph ℤ)
    (htree : g.is_tree = true)
    (hn : 1 ≤ t.n) (hm : 1 ≤ t.m)
    (hedge : ∀ e ∈ g.edges, ∃ i j, sIndex e.src = some i ∧
      dIndex e.dst = some j ∧ 1 ≤ i ∧ i ≤ t.n ∧ 1 ≤ j ∧ j ≤ t.m)
    (hcount : g.edges.length = t.n + t.m - 1)
    (hconn : ∀ p, p < t.n + t.m →
      p ∈ reachClosure (edgePairs t.n g.edges) (t.n + t.m)) :
    ∃ M u v, t.potentials g = some (u, v) ∧ t.marginal_cost g = some M ∧
      M.rows = t.n ∧ M.cols = t.m ∧
      (∀ i j, i < t.n → j < t.m →
        get2 M.data i j = ((get2 t.costs.data i j : ℤ) : ℚ) -
          (u.getD i 0 - v.getD j 0)) ∧
      (∀ e ∈ g.edges, ∀ i j, sIndex e.src = some i → dIndex e.dst = some j →
        get2 M.data (i - 1) (j - 1) = 0) := by
  obtain ⟨u, v, hp, hul, hvl, hu0, hedges⟩ :=
    potentials_spec t g htree hn hm hedge hcount hconn
  have hmc : t.marginal_cost g = some
      { data := (List.range t.n).map (fun i =>
          (List.range t.m).map (fun j =>
            ((get2 t.costs.data i j : ℤ) : ℚ) -
              (u.getD i 0 - v.getD j 0))),
        rows := t.n, cols := t.m } := by
    unfold Table.marginal_cost
    rw [hp]
    rfl
  have hcell : ∀ i j, i < t.n → j < t.m →
      get2 ((List.range t.n).map (fun i =>
        (List.range t.m).map (fun j =>
          ((get2 t.costs.data i j : ℤ) : ℚ) -
            (u.getD i 0 - v.getD j 0)))) i j =
      ((get2 t.costs.data i j : ℤ) : ℚ) - (u.getD i 0 - v.getD j 0) := by
    intro i j hi hj
    unfold get2
    rw [getD_map_range _ _ _ i, if_pos hi, getD_map_range _ _ _ j, if_pos hj]
  refine ⟨_, u, v, hp, hmc, rfl, rfl, hcell, ?_⟩
  intro e he i j hsi hdj
  obtain ⟨i0, j0, hsi0, hdj0, hi1, hin, hj1, hjm⟩ := hedge e he
  have hii : i0 = i := Option.some.inj (hsi0.symm.trans hsi)
  have hjj : j0 = j := Option.some.inj (hdj0.symm.trans hdj)
  rw [hcell (i - 1) (j - 1) (by omega) (by omega),
    hedges e he i j hsi hdj]
  ring

/-- C6 witness: the reduced-cost contract at the concrete table `tblEx`
and the spanning tree S1–D1, S1–D2, S2–D2. -/
theorem C6_witness :
    ∃ M u v, tblEx.potentials gTEx = some (u, v) ∧
      tblEx.marginal_cost gTEx = some M ∧
      M.rows = tblEx.n ∧ M.cols = tblEx.m ∧
      (∀ i j, i < tblEx.n → j < tblEx.m →
        get2 M.data i j = ((get2 tblEx.costs.data i j : ℤ) : ℚ) -
          (u.getD i 0 - v.getD j 0)) ∧
      (∀ e ∈ gTEx.edges, ∀ i j,
        sIndex e.src = some i → dIndex e.dst = some j →
        get2 M.data (i - 1) (j - 1) = 0) :=
  C6_theorem tblEx gTEx (by decide) (by decide) (by decide)
    (by
      intro e he
      simp only [gTEx, List.mem_cons, List.not_mem_nil, or_false] at he
      rcases he with rfl | rfl | rfl
      · exact ⟨1, 1, by decide, by decide, by decide, by decide, by decide,
          by decide⟩
      · exact ⟨1, 2, by decide, by decide, by decide, by decide, by decide,
          by decide⟩
      · exact ⟨2, 2, by decide, by decide, by decide, by decide, by decide,
          by decide⟩)
    (by decide) (by decide)

end Transporteur
